import Mathlib

/-!
Verification development for the Proofline evidence/insight pipeline.

This file gives a shallow embedding, in Lean 4, of the core functions of the
repository (evidence collection and conflict resolution from
`packages/core/src/evidence.ts`, path whitelisting from `packages/core/src/paths.ts`,
event classification and rule bootstrapping from `packages/event-engine/src`,
and the insight analyzers from `packages/core/src/insights.ts`), together with
theorems settling the frozen specification claims about them.

Modelling conventions, used consistently below:

* JavaScript strings are embedded as `List Char` (named `Str`).  `toLowerCase`
  is embedded as `Char.toLower` mapped over the characters; the values the
  relevant code paths compare are ASCII or CJK, where this agrees with
  JavaScript semantics.
* JavaScript numbers are embedded exactly: integral quantities (timestamps,
  priorities, counts) as `Int`/`Nat`, and the remaining numeric values
  (confidences, rule weights and scores) as `JNum`, an unnormalized fraction
  of integers.  All numeric literals appearing in the sources are small
  decimal fractions (0.72, 1.2, …) which IEEE doubles compare exactly the way
  the corresponding rationals do at every comparison the code performs, so no
  floating-point rounding behaviour is observable in the properties proved
  here.  `JNum` is chosen over Mathlib's `ℚ` so that all definitions reduce
  inside the kernel.
* `Array.prototype.sort(cmp)` is required by ECMAScript to be stable.  For the
  consistent comparators used by the sources, every stable sort produces the
  same list, so the embedding uses `List.insertionSort r` (which is stable)
  with `r a b` defined as `cmp a b ≤ 0` for the respective comparator.
* `stableId` (sha1-hex truncated to 16 characters over the "|"-join of the
  stringified parts) is a fixed pure function of its parts; it is embedded as
  an unspecified function parameter `hashFn` over the typed part list, and
  every theorem below is proved for all values of that parameter.
* Mutation-free translation: functions that push into arrays are embedded as
  functions returning the extended list; `throw` is embedded as a `Bool`/
  `Option` result.
-/

/-! ### Strings -/

/-- JavaScript strings, embedded as lists of characters. -/
abbrev Str := List Char

/-- Embedding of `String.prototype.toLowerCase`. -/
def lowerStr (s : Str) : Str := s.map Char.toLower

/-- Embedding of `text.startsWith(pat)`. -/
def jsStartsWith : Str → Str → Bool
  | _, [] => true
  | [], _ :: _ => false
  | c :: cs, p :: ps => c == p && jsStartsWith cs ps

/-- Embedding of `text.includes(pat)` (substring containment). -/
def jsIncludes : Str → Str → Bool
  | [], p => jsStartsWith [] p
  | c :: ts, p => jsStartsWith (c :: ts) p || jsIncludes ts p

/-- Embedding of `parts.join(sep)`. -/
def joinWith (sep : Str) : List Str → Str
  | [] => []
  | [x] => x
  | x :: y :: ys => x ++ sep ++ joinWith sep (y :: ys)

/-! ### JavaScript numbers

`JNum` represents the exact rational `num / (den1 + 1)`.  Storing the
denominator minus one keeps positivity structural, so that the order
relations below are total and transitive for every inhabitant. -/

/-- Exact embedding of the non-integral JavaScript numbers used by the
sources, as the fraction `num / (den1 + 1)`. -/
structure JNum where
  num : ℤ
  den1 : ℕ
  deriving DecidableEq, Repr

namespace JNum

/-- Denominator of a `JNum`, always positive. -/
def den (q : JNum) : ℤ := (q.den1 : ℤ) + 1

/-- Builds the `JNum` with value `n / d` (for `d ≥ 1`). -/
def frac (n : ℤ) (d : ℕ) : JNum := ⟨n, d - 1⟩

/-- Builds an integral `JNum`. -/
def ofInt (n : ℤ) : JNum := ⟨n, 0⟩

/-- Value comparison `a ≤ b` on JavaScript numbers (cross-multiplication). -/
def jle (a b : JNum) : Prop := a.num * b.den ≤ b.num * a.den

/-- Value equality `a === b` on JavaScript numbers (cross-multiplication). -/
def jeq (a b : JNum) : Prop := a.num * b.den = b.num * a.den

instance : DecidableRel jle := fun a b => inferInstanceAs (Decidable (_ ≤ _))

instance : DecidableRel jeq := fun a b => inferInstanceAs (Decidable (_ = _))

theorem den_pos (q : JNum) : 0 < q.den := by
  simp only [den]; omega

theorem jle_refl (a : JNum) : jle a a := le_refl _

theorem jle_total (a b : JNum) : jle a b ∨ jle b a := le_total _ _

theorem jle_trans {a b c : JNum} (h₁ : jle a b) (h₂ : jle b c) : jle a c := by
  unfold jle at *
  have hb := den_pos b
  have := mul_le_mul_of_nonneg_right h₁ (le_of_lt (den_pos c))
  have := mul_le_mul_of_nonneg_right h₂ (le_of_lt (den_pos a))
  have key : a.num * c.den * b.den ≤ c.num * a.den * b.den := by nlinarith
  exact le_of_mul_le_mul_right key hb

theorem jeq_iff {a b : JNum} : jeq a b ↔ jle a b ∧ jle b a := by
  unfold jeq jle
  omega

/-- Multiplication of a count by a `JNum` (exact). -/
def mulNat (n : ℕ) (q : JNum) : JNum := ⟨(n : ℤ) * q.num, q.den1⟩

/-- Embedding of `Number(x.toFixed(2))`: rounding to two decimals, half away
from zero on the positive values occurring here. -/
def round2 (q : JNum) : JNum :=
  ⟨Int.fdiv (200 * q.num + q.den) (2 * q.den), 99⟩

end JNum

/-! ### Stable sort characterization

`List.insertionSort r` is stable, so for a consistent comparator it embeds
`Array.prototype.sort`.  `firstBest` characterizes its head: the element that
would win a left-to-right scan keeping the incumbent on ties, i.e. the first
element among the `r`-maximal ones. -/

/-- First element of `l` that `r`-precedes (weakly) every later candidate;
this is the head of any stable sort of `l` by `r`. -/
def firstBest (r : α → α → Prop) [DecidableRel r] : List α → Option α
  | [] => none
  | x :: l =>
    match firstBest r l with
    | none => some x
    | some b => if r x b then some x else some b

theorem firstBest_eq_none (r : α → α → Prop) [DecidableRel r] {l : List α} :
    firstBest r l = none ↔ l = [] := by
  cases l with
  | nil => simp [firstBest]
  | cons x l =>
    simp only [firstBest]
    rcases firstBest r l with _ | b <;> simp only [] <;> constructor <;> intro h <;> simp_all
    by_cases hr : r x b <;> simp_all

theorem head_insertionSort (r : α → α → Prop) [DecidableRel r] (l : List α) :
    (List.insertionSort r l).head? = firstBest r l := by
  induction l with
  | nil => simp [firstBest]
  | cons x l ih =>
    simp only [List.insertionSort, firstBest]
    cases hs : List.insertionSort r l with
    | nil =>
      have : l = [] := by
        have := congrArg List.length hs
        simpa using this
      subst this
      simp [firstBest, List.orderedInsert]
    | cons b t =>
      rw [hs] at ih
      simp only [List.head?] at ih
      rw [← ih]
      simp only [List.orderedInsert]
      by_cases hr : r x b <;> simp [hr]

theorem firstBest_spec (r : α → α → Prop) [DecidableRel r]
    (total : ∀ a b, r a b ∨ r b a) (htrans : ∀ a b c, r a b → r b c → r a c)
    {l : List α} {w : α} (h : firstBest r l = some w) :
    ∃ l₁ l₂, l = l₁ ++ w :: l₂ ∧ (∀ x ∈ l, r w x) ∧ ∀ x ∈ l₁, ¬ r x w := by
  induction l generalizing w with
  | nil => simp [firstBest] at h
  | cons a l ih =>
    simp only [firstBest] at h
    cases hfb : firstBest r l with
    | none =>
      rw [hfb] at h
      have hl : l = [] := (firstBest_eq_none r).mp hfb
      subst hl
      simp only [Option.some.injEq] at h
      subst h
      refine ⟨[], [], rfl, ?_, by simp⟩
      intro x hx
      simp only [List.mem_singleton] at hx
      subst hx
      rcases total x x with h' | h' <;> exact h'
    | some b =>
      rw [hfb] at h
      obtain ⟨l₁, l₂, hsplit, hmax, hbefore⟩ := ih hfb
      by_cases hr : r a b
      · simp only [if_pos hr, Option.some.injEq] at h
        subst h
        refine ⟨[], l, rfl, ?_, by simp⟩
        intro x hx
        rcases List.mem_cons.mp hx with hx | hx
        · subst hx
          rcases total x x with h' | h' <;> exact h'
        · exact htrans _ _ _ hr (hmax _ hx)
      · simp only [if_neg hr, Option.some.injEq] at h
        subst h
        refine ⟨a :: l₁, l₂, by rw [hsplit]; rfl, ?_, ?_⟩
        · intro x hx
          rcases List.mem_cons.mp hx with rfl | hx
          · rcases total x b with h' | h'
            · exact absurd h' hr
            · exact h'
          · exact hmax _ hx
        · intro x hx
          rcases List.mem_cons.mp hx with rfl | hx
          · exact hr
          · exact hbefore _ hx

/-! ### Insertion-ordered grouping

Both `resolveConflicts` and the repetition clusterers group items with the
pattern `const arr = map.get(key) ?? []; arr.push(item); map.set(key, arr)`
over a JavaScript `Map`, whose iteration order is key-insertion order.  The
embedding keeps the group list in key-first-occurrence order and appends each
item at the end of its group, exactly as the source does. -/

/-- One step of the `Map` grouping pattern: append `x` to the group holding
`key x`, or create that group at the end. -/
def addToGroups [DecidableEq κ] (key : α → κ) (gs : List (κ × List α)) (x : α) :
    List (κ × List α) :=
  match gs with
  | [] => [(key x, [x])]
  | (k, xs) :: rest =>
    if k = key x then (k, xs ++ [x]) :: rest else (k, xs) :: addToGroups key rest x

/-- Embedding of the whole `Map`-based grouping loop. -/
def groupByKeyF [DecidableEq κ] (key : α → κ) (items : List α) : List (κ × List α) :=
  items.foldl (addToGroups key) []

theorem addToGroups_keys [DecidableEq κ] (key : α → κ) (x : α) :
    ∀ gs : List (κ × List α),
      (addToGroups key gs x).map Prod.fst =
        if key x ∈ gs.map Prod.fst then gs.map Prod.fst else gs.map Prod.fst ++ [key x] := by
  intro gs
  induction gs with
  | nil => simp [addToGroups]
  | cons g rest ih =>
    obtain ⟨k, xs⟩ := g
    simp only [addToGroups]
    by_cases hk : k = key x
    · subst hk
      simp
    · simp only [if_neg hk, List.map_cons, ih, List.mem_cons]
      have : ¬ key x = k := fun h => hk h.symm
      by_cases hm : key x ∈ rest.map Prod.fst <;> simp [hm, this]

theorem addToGroups_ne_nil [DecidableEq κ] (key : α → κ) (x : α) :
    ∀ gs : List (κ × List α), (∀ g ∈ gs, g.2 ≠ []) →
      ∀ g ∈ addToGroups key gs x, g.2 ≠ [] := by
  intro gs
  induction gs with
  | nil => simp [addToGroups]
  | cons g rest ih =>
    obtain ⟨k, xs⟩ := g
    intro hne g' hg'
    simp only [addToGroups] at hg'
    by_cases hk : k = key x
    · simp only [if_pos hk, List.mem_cons] at hg'
      rcases hg' with rfl | hg'
      · simp
      · exact hne _ (List.mem_cons_of_mem _ hg')
    · simp only [if_neg hk, List.mem_cons] at hg'
      rcases hg' with rfl | hg'
      · exact hne _ (List.mem_cons_self _ _)
      · exact ih (fun g hg => hne g (List.mem_cons_of_mem _ hg)) _ hg'

theorem addToGroups_filter [DecidableEq κ] (key : α → κ) (done : List α) (x : α) :
    ∀ gs : List (κ × List α),
      (gs.map Prod.fst).Nodup →
      (∀ g ∈ gs, g.2 = done.filter (fun y => decide (key y = g.1))) →
      (key x ∈ gs.map Prod.fst ∨ done.filter (fun y => decide (key y = key x)) = []) →
      ∀ g ∈ addToGroups key gs x, g.2 = (done ++ [x]).filter (fun y => decide (key y = g.1)) := by
  intro gs
  induction gs with
  | nil =>
    intro _ _ hfresh g hg
    simp only [addToGroups, List.mem_singleton] at hg
    subst hg
    simp only [List.map_nil, List.not_mem_nil, false_or] at hfresh
    simp [List.filter_append, hfresh]
  | cons g₀ rest ih =>
    obtain ⟨k, xs⟩ := g₀
    intro hnd hfilter hcover g hg
    simp only [List.map_cons, List.nodup_cons] at hnd
    simp only [addToGroups] at hg
    by_cases hk : k = key x
    · simp only [if_pos hk, List.mem_cons] at hg
      rcases hg with hgeq | hg
      · subst hgeq
        have hxs := hfilter (k, xs) (List.mem_cons_self _ _)
        simp only at hxs
        have hdec : decide (key x = k) = true := by simp [hk]
        simp [List.filter_append, hxs, hdec]
      · have hg2 := hfilter g (List.mem_cons_of_mem _ hg)
        have hne : key x ≠ g.1 := by
          intro h
          apply hnd.1
          rw [hk, h]
          exact List.mem_map_of_mem Prod.fst hg
        rw [hg2, List.filter_append]
        simp [hne]
    · simp only [if_neg hk, List.mem_cons] at hg
      rcases hg with hgeq | hg
      · subst hgeq
        have hxs := hfilter (k, xs) (List.mem_cons_self _ _)
        simp only at hxs
        have hne : key x ≠ k := fun h => hk h.symm
        rw [hxs, List.filter_append]
        simp [hne]
      · refine ih hnd.2 (fun g' hg' => hfilter g' (List.mem_cons_of_mem _ hg')) ?_ g hg
        rcases hcover with hc | hc
        · simp only [List.map_cons, List.mem_cons] at hc
          rcases hc with hc | hc
          · exact absurd hc.symm hk
          · exact Or.inl hc
        · exact Or.inr hc

/-- Invariant carried through the grouping fold. -/
def GroupsInv [DecidableEq κ] (key : α → κ) (gs : List (κ × List α)) (done : List α) : Prop :=
  (gs.map Prod.fst).Nodup
  ∧ (∀ g ∈ gs, g.2 = done.filter (fun y => decide (key y = g.1)))
  ∧ (∀ y ∈ done, key y ∈ gs.map Prod.fst)
  ∧ (∀ g ∈ gs, g.2 ≠ [])

theorem groupsInv_step [DecidableEq κ] (key : α → κ) {gs : List (κ × List α)} {done : List α}
    (h : GroupsInv key gs done) (x : α) :
    GroupsInv key (addToGroups key gs x) (done ++ [x]) := by
  obtain ⟨hnd, hfilter, hcover, hne⟩ := h
  have hdisj : key x ∈ gs.map Prod.fst ∨ done.filter (fun y => decide (key y = key x)) = [] := by
    by_cases hm : key x ∈ gs.map Prod.fst
    · exact Or.inl hm
    · right
      rw [List.filter_eq_nil_iff]
      intro y hy
      simp only [decide_eq_true_eq]
      intro hkey
      exact hm (hkey ▸ hcover y hy)
  refine ⟨?_, addToGroups_filter key done x gs hnd hfilter hdisj, ?_, addToGroups_ne_nil key x gs hne⟩
  · rw [addToGroups_keys]
    by_cases hm : key x ∈ gs.map Prod.fst
    · simpa [hm] using hnd
    · simp only [if_neg hm]
      refine List.Nodup.append hnd (List.nodup_singleton _) ?_
      intro a ha hb
      simp only [List.mem_singleton] at hb
      subst hb
      exact hm ha
  · intro y hy
    rw [addToGroups_keys]
    rcases List.mem_append.mp hy with hy | hy
    · by_cases hm : key x ∈ gs.map Prod.fst <;> simp [hm, hcover y hy]
    · simp only [List.mem_singleton] at hy
      subst hy
      by_cases hm : key y ∈ gs.map Prod.fst <;> simp [hm]

theorem groupByKeyF_inv [DecidableEq κ] (key : α → κ) (items : List α) :
    GroupsInv key (groupByKeyF key items) items := by
  suffices h : ∀ rest gs done, GroupsInv key gs done →
      GroupsInv key (rest.foldl (addToGroups key) gs) (done ++ rest) by
    have := h items [] [] ⟨by simp, by simp, by simp, by simp⟩
    simpa [groupByKeyF] using this
  intro rest
  induction rest with
  | nil => intro gs done h; simpa using h
  | cons x rest ih =>
    intro gs done h
    have := ih (addToGroups key gs x) (done ++ [x]) (groupsInv_step key h x)
    simpa using this

theorem nodup_map_eq_of_eq {l : List α} (h : (l.map f).Nodup)
    {a b : α} (ha : a ∈ l) (hb : b ∈ l) (hf : f a = f b) : a = b := by
  exact List.inj_on_of_nodup_map h ha hb hf

/-! ### Data model

The structures mirror the TypeScript interfaces in `packages/shared-types`.
Fields of type `Record<string, unknown>` that the verified code never reads
are omitted; the `metadata` of a `TimelineEvent` is represented by the three
optional entries (`cwd`, `projectRoot`, `project`) that `pushTimelineEvidence`
actually consults. -/

/-- Actor of a timeline event. -/
inductive Actor
  | user
  | assistant
  | system
  deriving DecidableEq, Repr

/-- Normalized input event (already sorted and deduplicated upstream). -/
structure TimelineEvent where
  id : Str
  client : Str
  ts : ℤ
  label : Str
  detail : Str
  actor : Actor
  tags : List Str
  sourcePath : Str
  mdCwd : Option Str
  mdProjectRoot : Option Str
  mdProject : Option Str
  deriving DecidableEq, Repr

/-- The evidence type union of `EvidenceItem.type`. -/
inductive EvidenceType
  | file_change
  | tool_call
  | tool_result
  | assistant_text
  | user_text
  | system
  deriving DecidableEq, Repr

/-- Typed observation produced by the evidence collector. -/
structure EvidenceItem where
  id : Str
  client : Str
  projectId : Option Str
  ts : ℤ
  type : EvidenceType
  sourcePath : Str
  summary : Str
  detail : Str
  confidence : JNum
  priority : ℤ
  eventId : Option Str
  deriving DecidableEq, Repr

/-- Record of one deduplication decision. -/
structure EvidenceConflict where
  id : Str
  winnerEvidenceId : Str
  discardedEvidenceIds : List Str
  reason : Str
  confidence : JNum
  deriving DecidableEq, Repr

/-- One project known to the scope. -/
structure ProjectRef where
  id : Str
  root : Str
  deriving DecidableEq, Repr

/-- Tagged project scope: a single project or all discovered projects. -/
inductive ProjectScope
  | single (project : ProjectRef)
  | all (projects : List ProjectRef)
  deriving DecidableEq, Repr

/-- Time range of a query; `endTs` embeds the source field `end` (a Lean
keyword). -/
structure TimeRange where
  start : ℤ
  endTs : ℤ
  deriving DecidableEq, Repr

/-- Typed part of a `stableId` input (`Array<string | number>`). -/
inductive SPart
  | s (v : Str)
  | n (v : ℤ)
  deriving DecidableEq, Repr

/-- Embedding of `stableId`: sha1-hex truncated to 16 characters of the
"|"-join of the stringified parts.  The hash is a fixed pure function of the
part list; it is kept as the parameter `hashFn`, and all theorems hold for
every choice of it. -/
def stableId (hashFn : List SPart → Str) (parts : List SPart) : Str := hashFn parts

/-- One audit entry of the path whitelist. -/
structure PathAccessRecord where
  path : Str
  action : Str
  allowed : Bool
  reason : Str
  ts : ℤ
  deriving DecidableEq, Repr

/-! ### PathGuard (`packages/core/src/paths.ts`)

`resolve`/`normalize` from `node:path` depend on the process working
directory and platform; they are embedded as the function parameter
`normResolve` (and the platform separator as `sep`), and the theorems hold
for every choice of both.  `Date.now()` is the parameter `now`.  The `throw`
on a denied path is embedded as the `false` component of the result. -/

/-- Embedding of `recordAudit`: appends a single audit record. -/
def recordAudit (audit : List PathAccessRecord) (path : Str) (action : Str)
    (allowed : Bool) (reason : Str) (now : ℤ) : List PathAccessRecord :=
  audit ++ [⟨path, action, allowed, reason, now⟩]

/-- Embedding of `assertPathAllowed`.  Returns the extended audit list and
`true` on success, `false` where the source throws. -/
def assertPathAllowed (normResolve : Str → Str) (sep : Char) (now : ℤ)
    (filePath : Str) (allowedRoots : List Str) (audit : List PathAccessRecord)
    (action : Str) : List PathAccessRecord × Bool :=
  let resolved := normResolve filePath
  let allowed := allowedRoots.any fun root =>
    let normalizedRoot := normResolve root
    resolved == normalizedRoot || jsStartsWith resolved (normalizedRoot ++ [sep])
  if !allowed then
    (recordAudit audit resolved action false ("outside client whitelist").data now, false)
  else
    (recordAudit audit resolved action true ("within client whitelist").data now, true)

/-! ### EvidenceCollector (`packages/core/src/evidence.ts`)

Only the timeline-derived evidence stream is embedded; the filesystem walk
(`walkChangedFiles`) performs real I/O and no frozen claim depends on it
beyond the path checks verified separately above. -/

/-- Embedding of `evidenceTypeFromTimelineEvent`. -/
def evidenceTypeFromTimelineEvent (event : TimelineEvent) : EvidenceType :=
  let tags := lowerStr (joinWith (" ").data event.tags)
  let label := lowerStr (event.label ++ (" ").data ++ event.detail)
  if jsIncludes tags ("file_change").data then .file_change
  else if jsIncludes tags ("tool_result").data || jsIncludes label ("function_call_output").data then
    .tool_result
  else if jsIncludes tags ("tool_use").data || jsIncludes label ("function_call").data then
    .tool_call
  else if event.actor = .assistant then .assistant_text
  else if event.actor = .user then .user_text
  else .system

/-- Embedding of `priorityOf`. -/
def priorityOf : EvidenceType → ℤ
  | .file_change => 6
  | .tool_call => 5
  | .tool_result => 5
  | .assistant_text => 4
  | .user_text => 3
  | _ => 2

/-- Embedding of `confidenceOf`. -/
def confidenceOf : EvidenceType → JNum
  | .file_change => JNum.frac 95 100
  | .tool_call => JNum.frac 9 10
  | .tool_result => JNum.frac 9 10
  | .assistant_text => JNum.frac 82 100
  | .user_text => JNum.frac 72 100
  | _ => JNum.frac 6 10

/-- String name of an evidence type, as interpolated into `stableId`. -/
def typeKey : EvidenceType → Str
  | .file_change => ("file_change").data
  | .tool_call => ("tool_call").data
  | .tool_result => ("tool_result").data
  | .assistant_text => ("assistant_text").data
  | .user_text => ("user_text").data
  | .system => ("system").data

/-- Embedding of `matchProjectId`.  The source compares with the naive string
method `normalized.startsWith(project.root)`; this is embedded verbatim. -/
def matchProjectId (normResolve : Str → Str) (scope : ProjectScope)
    (pathOrRoot : Str) : Option Str :=
  if pathOrRoot.isEmpty then none
  else
    let normalized := normResolve pathOrRoot
    match scope with
    | .single project =>
      if jsStartsWith normalized project.root then some project.id else none
    | .all projects =>
      (projects.find? fun project => jsStartsWith normalized project.root).map (·.id)

/-- The argument `String(event.metadata.cwd ?? event.metadata.projectRoot ??
event.metadata.project ?? "")` of `matchProjectId`. -/
def metaPath (event : TimelineEvent) : Str :=
  (event.mdCwd.orElse fun _ => (event.mdProjectRoot.orElse fun _ => event.mdProject)).getD []

/-- Input of the evidence collector (fields the embedded stream reads). -/
structure CollectInput where
  client : Str
  scope : ProjectScope
  range : TimeRange
  timeline : List TimelineEvent
  deriving Repr

/-- Embedding of `pushTimelineEvidence` (the loop body pushes at most one
item per timeline event, in order, which `filterMap` reproduces). -/
def pushTimelineEvidence (hashFn : List SPart → Str) (normResolve : Str → Str)
    (input : CollectInput) : List EvidenceItem :=
  input.timeline.filterMap fun event =>
    if event.ts < input.range.start || input.range.endTs < event.ts then none
    else
      let projectId := matchProjectId normResolve input.scope (metaPath event)
      if (match input.scope, projectId with
          | ProjectScope.single project, some pid => pid != project.id
          | _, _ => false) then none
      else
        let type := evidenceTypeFromTimelineEvent event
        some
          { id := stableId hashFn [.s input.client, .s ("timeline").data, .s event.id, .s (typeKey type)]
            client := input.client
            projectId := projectId
            ts := event.ts
            type := type
            sourcePath := event.sourcePath
            summary := event.label
            detail := event.detail
            confidence := confidenceOf type
            priority := priorityOf type
            eventId := some event.id }

/-! ### ConflictResolver (`resolveConflicts` in `evidence.ts`) -/

/-- Embedding of the collision key.  The source builds the single string
`bucket + "|" + (projectId ?? "-") + "|" + summary.toLowerCase()`.  Since the
decimal rendering of the minute bucket is injective and never contains `|`,
two source keys are equal exactly when the bucket numbers agree and the
remaining text (kept verbatim, including any further `|` characters) agrees;
the pair below is therefore equality-equivalent to the source key on every
input, while reducing in the kernel. -/
def collisionKey (item : EvidenceItem) : ℤ × Str :=
  (Int.fdiv item.ts 60000,
   (item.projectId.getD ("-").data) ++ ("|").data ++ lowerStr item.summary)

/-- Embedding of the ranking comparator of `resolveConflicts` (`rankLE a b`
iff the comparator puts `a` weakly before `b`): priority descending, then
confidence descending, then timestamp descending. -/
def rankLE (a b : EvidenceItem) : Prop :=
  if b.priority = a.priority then
    if JNum.jeq b.confidence a.confidence then b.ts ≤ a.ts
    else JNum.jle b.confidence a.confidence
  else b.priority ≤ a.priority

instance : DecidableRel rankLE := fun a b => by unfold rankLE; infer_instance

theorem rankLE_iff {a b : EvidenceItem} :
    rankLE a b ↔
      b.priority < a.priority
      ∨ (b.priority = a.priority
         ∧ ((JNum.jle b.confidence a.confidence ∧ ¬ JNum.jle a.confidence b.confidence)
            ∨ (JNum.jle b.confidence a.confidence ∧ JNum.jle a.confidence b.confidence
               ∧ b.ts ≤ a.ts))) := by
  unfold rankLE
  by_cases hp : b.priority = a.priority
  · rw [if_pos hp]
    by_cases hc : JNum.jeq b.confidence a.confidence
    · have hc' := JNum.jeq_iff.mp hc
      rw [if_pos hc]
      constructor
      · intro h
        exact Or.inr ⟨hp, Or.inr ⟨hc'.1, hc'.2, h⟩⟩
      · intro h
        rcases h with h | ⟨-, h | h⟩
        · omega
        · exact absurd hc'.2 h.2
        · exact h.2.2
    · rw [if_neg hc]
      constructor
      · intro h
        refine Or.inr ⟨hp, Or.inl ⟨h, ?_⟩⟩
        intro h'
        exact hc (JNum.jeq_iff.mpr ⟨h, h'⟩)
      · intro h
        rcases h with h | ⟨-, h | h⟩
        · omega
        · exact h.1
        · exact absurd (JNum.jeq_iff.mpr ⟨h.1, h.2.1⟩) hc
  · rw [if_neg hp]
    constructor
    · intro h
      left
      omega
    · intro h
      rcases h with h | ⟨h, -⟩
      · omega
      · exact absurd h hp

theorem rankLE_total (a b : EvidenceItem) : rankLE a b ∨ rankLE b a := by
  rw [rankLE_iff, rankLE_iff]
  rcases lt_trichotomy a.priority b.priority with hp | hp | hp
  · right; left; exact hp
  · by_cases hc : JNum.jle a.confidence b.confidence
    · by_cases hc' : JNum.jle b.confidence a.confidence
      · rcases le_total a.ts b.ts with ht | ht
        · right; exact Or.inr ⟨hp, Or.inr ⟨hc, hc', ht⟩⟩
        · left; exact Or.inr ⟨hp.symm, Or.inr ⟨hc', hc, ht⟩⟩
      · right; exact Or.inr ⟨hp, Or.inl ⟨hc, hc'⟩⟩
    · rcases JNum.jle_total a.confidence b.confidence with h | h
      · exact absurd h hc
      · left; exact Or.inr ⟨hp.symm, Or.inl ⟨h, hc⟩⟩
  · left; left; exact hp

theorem rankLE_trans {a b c : EvidenceItem} (h₁ : rankLE a b) (h₂ : rankLE b c) :
    rankLE a c := by
  rw [rankLE_iff] at *
  rcases h₁ with h₁ | ⟨hp₁, h₁⟩
  · rcases h₂ with h₂ | ⟨hp₂, h₂⟩
    · left; omega
    · left; omega
  · rcases h₂ with h₂ | ⟨hp₂, h₂⟩
    · left; omega
    · right
      refine ⟨by omega, ?_⟩
      rcases h₁ with ⟨hle₁, hnle₁⟩ | ⟨hle₁, hle₁', ht₁⟩
      · rcases h₂ with ⟨hle₂, hnle₂⟩ | ⟨hle₂, hle₂', ht₂⟩
        · exact Or.inl ⟨JNum.jle_trans hle₂ hle₁, fun h => hnle₂ (JNum.jle_trans hle₁ h)⟩
        · exact Or.inl ⟨JNum.jle_trans hle₂ hle₁, fun h => hnle₁ (JNum.jle_trans h hle₂)⟩
      · rcases h₂ with ⟨hle₂, hnle₂⟩ | ⟨hle₂, hle₂', ht₂⟩
        · exact Or.inl ⟨JNum.jle_trans hle₂ hle₁, fun h => hnle₂ (JNum.jle_trans hle₁ h)⟩
        · exact Or.inr ⟨JNum.jle_trans hle₂ hle₁, JNum.jle_trans hle₁' hle₂', by omega⟩

/-- Embedding of the final `kept.sort((a, b) => a.ts - b.ts)` comparator. -/
def tsLE (a b : EvidenceItem) : Prop := a.ts ≤ b.ts

instance : DecidableRel tsLE := fun a b => inferInstanceAs (Decidable (_ ≤ _))

/-- Result record of `resolveConflicts`. -/
structure ConflictResult where
  evidence : List EvidenceItem
  conflicts : List EvidenceConflict
  deriving DecidableEq, Repr

/-- The conflict record pushed for a ranked multi-item group. -/
def mkConflict (hashFn : List SPart → Str) (winner : EvidenceItem) (rest : List EvidenceItem) :
    EvidenceConflict :=
  { id := stableId hashFn [.s ("conflict").data, .s winner.id, .n ((rest.length : ℤ) + 1)]
    winnerEvidenceId := winner.id
    discardedEvidenceIds := rest.map (·.id)
    reason := ("priority_rule:file_change>tool>assistant>user").data
    confidence := winner.confidence }

/-- Loop body of `resolveConflicts` over one collision group. -/
def rcStep (hashFn : List SPart → Str) (acc : List EvidenceItem × List EvidenceConflict)
    (g : (ℤ × Str) × List EvidenceItem) : List EvidenceItem × List EvidenceConflict :=
  match g.2 with
  | [x] => (acc.1 ++ [x], acc.2)
  | group =>
    match List.insertionSort rankLE group with
    | [] => acc
    | winner :: rest => (acc.1 ++ [winner], acc.2 ++ [mkConflict hashFn winner rest])

/-- Embedding of `resolveConflicts`. -/
def resolveConflicts (hashFn : List SPart → Str) (items : List EvidenceItem) :
    ConflictResult :=
  let byKey := groupByKeyF collisionKey items
  let step := byKey.foldl (rcStep hashFn) ([], [])
  { evidence := List.insertionSort tsLE step.1, conflicts := step.2 }

/-! ### EventClassifier (`packages/event-engine/src/classify.ts`) -/

/-- The major-event type union. -/
inductive MajorType
  | GOAL
  | ASSIST
  | PENALTY
  | YELLOW_CARD
  | RED_CARD
  | CORNER
  | OFFSIDE
  | SUBSTITUTION
  deriving DecidableEq, Repr

/-- String form of a major-event type, as interpolated into titles. -/
def majorTypeStr : MajorType → Str
  | .GOAL => ("GOAL").data
  | .ASSIST => ("ASSIST").data
  | .PENALTY => ("PENALTY").data
  | .YELLOW_CARD => ("YELLOW_CARD").data
  | .RED_CARD => ("RED_CARD").data
  | .CORNER => ("CORNER").data
  | .OFFSIDE => ("OFFSIDE").data
  | .SUBSTITUTION => ("SUBSTITUTION").data

/-- Classification rule (static or bootstrapped configuration). -/
structure EventRule where
  id : Str
  eventType : MajorType
  anyOf : List Str
  allOf : Option (List Str)
  not : Option (List Str)
  minScore : Option JNum
  weight : Option JNum
  deriving DecidableEq, Repr

/-- Classified major event. -/
structure MajorEvent where
  id : Str
  client : Str
  ts : ℤ
  type : MajorType
  title : Str
  summary : Str
  score : JNum
  triggerEventId : Str
  followUpEventIds : List Str
  ruleId : Str
  deriving DecidableEq, Repr

/-- Optional LLM enrichment configuration.  `summarize` embeds the awaited
`summarizeMajorEventWithLLM` call as a pure oracle; a `none` result models a
thrown error or empty response (the rule summary is then kept). -/
structure LLMConfig where
  enabled : Bool
  summarize : MajorEvent → List TimelineEvent → Option Str

/-- Options of `classifyEvents`. -/
structure ClassifyOptions where
  rules : List EventRule
  followUpWindow : ℕ
  followUpCount : ℕ
  llm : Option LLMConfig

/-- Embedding of `normalizeText`. -/
def normalizeText (text : Str) : Str := lowerStr text

/-- Text a rule is scored against: lowercased `label + detail + tags`. -/
def eventText (event : TimelineEvent) : Str :=
  normalizeText
    (event.label ++ (" ").data ++ event.detail ++ (" ").data ++ joinWith (" ").data event.tags)

/-- Embedding of `scoreRule`. -/
def scoreRule (rule : EventRule) (event : TimelineEvent) : JNum :=
  let text := eventText event
  let score : ℕ := rule.anyOf.countP fun token => jsIncludes text (lowerStr token)
  let allOfBlocks : Bool :=
    match rule.allOf with
    | some l => !l.isEmpty && !(l.all fun token => jsIncludes text (lowerStr token))
    | none => false
  let notBlocks : Bool :=
    match rule.not with
    | some l => !l.isEmpty && (l.any fun token => jsIncludes text (lowerStr token))
    | none => false
  if allOfBlocks then JNum.ofInt 0
  else if notBlocks then JNum.ofInt 0
  else JNum.mulNat score (rule.weight.getD (JNum.ofInt 1))

/-- The `minScore ?? 1` default. -/
def minScoreOf (rule : EventRule) : JNum := rule.minScore.getD (JNum.ofInt 1)

/-- Comparator of the `(value, score)`-pair sorts (`(a, b) => b.score - a.score`),
used by `topRule` and by `pickBest` in `findNearestEvidence`. -/
def scoreLE (a b : α × JNum) : Prop := JNum.jle b.2 a.2

instance : DecidableRel (scoreLE (α := α)) := fun a b =>
  inferInstanceAs (Decidable (JNum.jle _ _))

/-- Embedding of `topRule`: score all rules, keep those meeting their own
`minScore`, stable-sort by score descending, return the head. -/
def topRule (event : TimelineEvent) (rules : List EventRule) : Option (EventRule × JNum) :=
  (List.insertionSort scoreLE
    ((rules.map fun rule => (rule, scoreRule rule event)).filter
      fun x => decide (JNum.jle (minScoreOf x.1) x.2))).head?

/-- Embedding of `Array.prototype.slice(a, b)` for `0 ≤ a ≤ b`. -/
def jsSlice (l : List α) (a b : ℕ) : List α := (l.drop a).take (b - a)

/-- Embedding of the optional LLM enrichment step of `classifyEvents`. -/
def applyLLM (options : ClassifyOptions) (timeline : List TimelineEvent)
    (major : MajorEvent) : MajorEvent :=
  match options.llm with
  | none => major
  | some cfg =>
    if cfg.enabled then
      match cfg.summarize major timeline with
      | some s => if s.isEmpty then major else { major with summary := s }
      | none => major
    else major

/-- Loop body of `classifyEvents` at timeline index `i`. -/
def classifyStep (hashFn : List SPart → Str) (timeline : List TimelineEvent)
    (options : ClassifyOptions) (i : ℕ) : Option MajorEvent :=
  match timeline.get? i with
  | none => none
  | some event =>
    match topRule event options.rules with
    | none => none
    | some mtch =>
      let followupIds :=
        ((jsSlice timeline (i + 1) (i + 1 + options.followUpWindow)).take
          options.followUpCount).map (·.id)
      let major : MajorEvent :=
        { id := stableId hashFn [.s event.id, .s mtch.1.id, .n event.ts]
          client := event.client
          ts := event.ts
          type := mtch.1.eventType
          title := majorTypeStr mtch.1.eventType ++ (": ").data ++ event.label
          summary := event.detail.take 220
          score := JNum.round2 mtch.2
          triggerEventId := event.id
          followUpEventIds := followupIds
          ruleId := mtch.1.id }
      some (applyLLM options timeline major)

/-- Embedding of `classifyEvents` (the indexed loop emitting at most one
major event per timeline position). -/
def classifyEvents (hashFn : List SPart → Str) (timeline : List TimelineEvent)
    (options : ClassifyOptions) : List MajorEvent :=
  (List.range timeline.length).filterMap (classifyStep hashFn timeline options)

/-! ### RuleBootstrapper (`packages/event-engine/src`) -/

/-- Embedding of `DEFAULT_RULES` from `defaultRules.ts`. -/
def DEFAULT_RULES : List EventRule :=
  [ { id := ("goal-delivery").data, eventType := .GOAL
      anyOf := [("fixed").data, ("implemented").data, ("merged").data, ("shipped").data,
                ("done").data, ("success").data, ("完成").data, ("已实现").data, ("搞定").data]
      allOf := none, not := none
      minScore := some (JNum.ofInt 1), weight := some (JNum.frac 12 10) }
  , { id := ("assist-tool").data, eventType := .ASSIST
      anyOf := [("tool").data, ("shell").data, ("apply_patch").data, ("function_call").data,
                ("query").data, ("tool_use").data, ("tool_result").data]
      allOf := none, not := none
      minScore := some (JNum.ofInt 1), weight := some (JNum.ofInt 1) }
  , { id := ("penalty-failure").data, eventType := .PENALTY
      anyOf := [("error").data, ("failed").data, ("exception").data, ("timeout").data,
                ("cannot").data, ("失败").data, ("报错").data, ("超时").data]
      allOf := none, not := none
      minScore := some (JNum.ofInt 1), weight := some (JNum.frac 11 10) }
  , { id := ("yellow-warning").data, eventType := .YELLOW_CARD
      anyOf := [("warning").data, ("deprecated").data, ("risk").data, ("caution").data,
                ("warning:").data, ("注意").data, ("风险").data]
      allOf := none, not := none
      minScore := some (JNum.ofInt 1), weight := some (JNum.frac 9 10) }
  , { id := ("red-blocker").data, eventType := .RED_CARD
      anyOf := [("blocked").data, ("fatal").data, ("security").data, ("permission denied").data,
                ("blocked by").data, ("权限").data, ("阻塞").data]
      allOf := none, not := none
      minScore := some (JNum.ofInt 1), weight := some (JNum.frac 14 10) }
  , { id := ("corner-setup").data, eventType := .CORNER
      anyOf := [("plan").data, ("scaffold").data, ("initialize").data, ("setup").data,
                ("skeleton").data, ("规划").data, ("计划").data, ("初始化").data]
      allOf := none, not := none
      minScore := some (JNum.ofInt 1), weight := some (JNum.frac 8 10) }
  , { id := ("offside-revert").data, eventType := .OFFSIDE
      anyOf := [("revert").data, ("rollback").data, ("wrong").data, ("mistake").data,
                ("撤销").data, ("回滚").data, ("误判").data]
      allOf := none, not := none
      minScore := some (JNum.ofInt 1), weight := some (JNum.ofInt 1) }
  , { id := ("substitution-switch").data, eventType := .SUBSTITUTION
      anyOf := [("switch").data, ("replace").data, ("migrate").data, ("refactor").data,
                ("替换").data, ("切换").data, ("迁移").data]
      allOf := none, not := none
      minScore := some (JNum.ofInt 1), weight := some (JNum.frac 8 10) } ]

/-- ASCII whitespace, embedding the relevant core of the regex class `\s`. -/
def isWsChar (c : Char) : Bool :=
  c == ' ' || c == '\t' || c == '\n' || c == '\r' || c == '\x0b' || c == '\x0c'

/-- Characters kept by the bootstrap regex `[^a-z0-9\s]` replacement. -/
def isKeywordChar (c : Char) : Bool :=
  (decide ('a' ≤ c) && decide (c ≤ 'z')) || (decide ('0' ≤ c) && decide (c ≤ '9'))

/-- Embedding of `split(/\s+/)`, dropping the empty fragments that the
subsequent length filter of the source removes anyway. -/
def splitWsGo (cur : Str) : Str → List Str
  | [] => if cur.isEmpty then [] else [cur.reverse]
  | c :: rest =>
    if isWsChar c then
      if cur.isEmpty then splitWsGo [] rest else cur.reverse :: splitWsGo [] rest
    else splitWsGo (c :: cur) rest

/-- Splits on whitespace runs. -/
def splitWs (s : Str) : List Str := splitWsGo [] s

/-- One `bag.set(word, (bag.get(word) ?? 0) + 1)` step; a JavaScript `Map`
keeps the first-insertion position of an updated key. -/
def addCount (bag : List (Str × ℕ)) (w : Str) : List (Str × ℕ) :=
  match bag with
  | [] => [(w, 1)]
  | (k, c) :: rest => if k = w then (k, c + 1) :: rest else (k, c) :: addCount rest w

/-- Comparator of the keyword-frequency sort (`(a, b) => b[1] - a[1]`). -/
def countLE (a b : Str × ℕ) : Prop := b.2 ≤ a.2

instance : DecidableRel countLE := fun a b => inferInstanceAs (Decidable (_ ≤ _))

/-- First-occurrence deduplication, embedding iteration over a `Set`. -/
def dedupSeen [DecidableEq β] (seen : List β) : List β → List β
  | [] => []
  | x :: xs => if x ∈ seen then dedupSeen seen xs else x :: dedupSeen (x :: seen) xs

/-- The word list mined from one timeline event by the bootstrapper. -/
def bootstrapWords (event : TimelineEvent) : List Str :=
  (splitWs ((lowerStr (event.label ++ (" ").data ++ event.detail)).map fun c =>
    if isKeywordChar c || isWsChar c then c else ' ')).filter fun w => decide (4 ≤ w.length)

/-- Embedding of `bootstrapRulesFromTimeline`. -/
def bootstrapRulesFromTimeline (timeline : List TimelineEvent)
    (topKeywordsOpt : Option ℕ) : List EventRule :=
  let topKeywords := topKeywordsOpt.getD 16
  let bag := timeline.foldl (fun bag event => (bootstrapWords event).foldl addCount bag) []
  let top := ((List.insertionSort countLE bag).take topKeywords).map Prod.fst
  if top.isEmpty then DEFAULT_RULES
  else DEFAULT_RULES.map fun rule =>
    { rule with anyOf := dedupSeen [] (rule.anyOf ++ top.take 3) }

/-! ### InsightsEngine (`packages/core/src/insights.ts`)

The leaf text functions of the insights module (`extractReadableText` with
its recursive JSON miner, `normalizeInstructionText` with Unicode NFKC,
`tokenize` with Unicode property classes, the `node:path` helpers used by
`deriveArea`/`basename`, the regex phrase capture, and JavaScript number
formatting) depend on Unicode, JSON and path-library semantics that cannot
be re-derived faithfully in a shallow embedding; the pipeline structure never
depends on their outputs' internals.  They are collected as the parameter
record `TextKit`, and every theorem about the insights stage is proved for
all values of that record.  Everything structural (filtering, grouping,
windows, sorting, caps, interpretation policy) is embedded concretely. -/

/-- Candidate role in `scoreEvidenceCandidate`. -/
inductive BAMode
  | before
  | after
  deriving DecidableEq, Repr

/-- The opaque text-level helpers of `insights.ts` (see the section comment). -/
structure TextKit where
  extractReadableText : Str → Str
  normalizeInstructionText : Str → Str
  tokenize : Str → List Str
  numToStr : ℕ → Str
  deriveArea : ProjectScope → Str → Option Str → Str
  basename : Str → Str
  captureBefore : Str → Option Str
  captureAfter : Str → Option Str
  summarizeEvidenceText : Str → Str → Str
  scoreEvidenceCandidate : EvidenceItem → BAMode → ℤ → List Str → JNum

/-- Extracted user instruction. -/
structure UserInstruction where
  id : Str
  ts : ℤ
  text : Str
  normalized : Str
  tokens : List Str
  sourceEventId : Option Str
  deriving DecidableEq, Repr

/-- Embedding of `isBoilerplateInstruction`. -/
def isBoilerplateInstruction (text : Str) : Bool :=
  let normalized := lowerStr text
  jsStartsWith normalized ("# agents.md instructions").data
  || jsStartsWith normalized ("<environment_context>").data
  || jsStartsWith normalized ("environment context").data
  || (jsIncludes normalized ("cwd /users/").data && jsIncludes normalized ("shell zsh").data)
  || jsIncludes normalized ("a skill is a set of local instructions").data
  || jsIncludes normalized ("turn aborted by user").data
  || jsIncludes normalized ("turn aborted").data

/-- Decimal digit test. -/
def isDigitChar (c : Char) : Bool := decide ('0' ≤ c) && decide (c ≤ '9')

/-- The word list of the first triviality regex. -/
def trivialGoWords : List Str :=
  [("go").data, ("go on").data, ("continue").data, ("ok").data, ("okay").data, ("yes").data,
   ("done").data, ("run").data, ("继续").data, ("好的").data, ("开始").data, ("走起").data]

/-- Embedding of the anchored regex `^\d+\s*\.?\s*(go|go on|go ahead|continue)$`. -/
def isNumberedGo (s : Str) : Bool :=
  let ds := s.takeWhile isDigitChar
  if ds.isEmpty then false
  else
    let rest := (s.drop ds.length).dropWhile isWsChar
    let rest :=
      match rest with
      | '.' :: r => r.dropWhile isWsChar
      | r => r
    decide (rest ∈ [("go").data, ("go on").data, ("go ahead").data, ("continue").data])

/-- Embedding of `isTrivialInstruction`. -/
def isTrivialInstruction (instruction : UserInstruction) : Bool :=
  let normalized := instruction.normalized
  if normalized.isEmpty then true
  else if normalized ∈ trivialGoWords then true
  else if isNumberedGo normalized then true
  else decide (instruction.tokens.length ≤ 1) && decide (normalized.length ≤ 8)

/-- Embedding of the instruction sort comparator (`(a, b) => a.ts - b.ts`). -/
def instTsLE (a b : UserInstruction) : Prop := a.ts ≤ b.ts

instance : DecidableRel instTsLE := fun a b => inferInstanceAs (Decidable (_ ≤ _))

/-- Embedding of `buildUserInstructions`. -/
def buildUserInstructions (hashFn : List SPart → Str) (kit : TextKit)
    (timeline : List TimelineEvent) : List UserInstruction :=
  List.insertionSort instTsLE
    (((timeline.filter fun event => event.actor == .user).map fun event =>
        let text := kit.extractReadableText event.detail
        let normalized := kit.normalizeInstructionText text
        { id := stableId hashFn [.s ("instruction").data, .s event.id]
          ts := event.ts
          text := text
          normalized := normalized
          tokens := kit.tokenize normalized
          sourceEventId := some event.id : UserInstruction }).filter
      fun item => decide (0 < item.text.length) && !(isBoilerplateInstruction item.text))

/-- Embedding of `topTopicTokens`. -/
def topTopicTokens (tokens : List Str) : List Str :=
  (tokens.filter fun token => decide (1 < token.length)).take 3

/-! ### Binary searches and the nearby-file-change progress signal -/

/-- The common loop of `binarySearchLeft`/`binarySearchRight`: the two source
functions differ only in the strictness of the probe comparison, abstracted
here as the predicate `p` (`p x` means "descend to the right half"). -/
def bsGo (l : List ℤ) (p : ℤ → Bool) (left right : ℕ) : ℕ :=
  if h : left < right then
    let mid := (left + right) / 2
    if p (l.getD mid 0) then bsGo l p (mid + 1) right
    else bsGo l p left mid
  else left
termination_by right - left
decreasing_by
  · omega
  · omega

/-- Embedding of `binarySearchLeft`: first index whose value is not `< target`. -/
def binarySearchLeft (sortedTs : List ℤ) (target : ℤ) : ℕ :=
  bsGo sortedTs (fun x => decide (x < target)) 0 sortedTs.length

/-- Embedding of `binarySearchRight`: first index whose value is not `≤ target`. -/
def binarySearchRight (sortedTs : List ℤ) (target : ℤ) : ℕ :=
  bsGo sortedTs (fun x => decide (x ≤ target)) 0 sortedTs.length

/-- Embedding of `computeFileChangeAroundInstructions`. -/
def computeFileChangeAroundInstructions (instructionTs : List ℤ)
    (evidence : List EvidenceItem) (windowMs : ℤ) : ℕ :=
  let fileChanges := List.insertionSort tsLE (evidence.filter fun item => item.type == .file_change)
  if fileChanges.isEmpty || instructionTs.isEmpty then 0
  else
    let tsList := fileChanges.map (·.ts)
    instructionTs.foldl
      (fun total ts =>
        total + (binarySearchRight tsList (ts + windowMs) - binarySearchLeft tsList (ts - windowMs)))
      0

/-- The fixed substring alternatives of the stuck-language regex. -/
def stuckMarkers : List Str :=
  [("还是").data, ("仍然").data, ("不行").data, ("失败").data, ("报错").data, ("卡住").data,
   ("没好").data, ("again").data, ("still").data, ("retry").data, ("cannot").data,
   ("can\x27t").data, ("failed").data, ("error").data]

/-- Embedding of the `not\s+work` alternative of the stuck-language regex. -/
def hasNotWork : Str → Bool
  | [] => false
  | c :: rest =>
    (jsStartsWith (c :: rest) ("not").data
      && (let after := (c :: rest).drop 3
          !(after.takeWhile isWsChar).isEmpty
            && jsStartsWith (after.dropWhile isWsChar) ("work").data))
    || hasNotWork rest

/-- Embedding of `hasStuckLanguage`. -/
def hasStuckLanguage (texts : List Str) : Bool :=
  let merged := lowerStr (joinWith (" ").data texts)
  stuckMarkers.any (fun marker => jsIncludes merged marker) || hasNotWork merged

/-- Repetition cluster kinds. -/
inductive RepKind
  | exact_repeat
  | topic_repeat
  deriving DecidableEq, Repr

/-- Repetition cluster interpretations. -/
inductive Interp
  | feature_polish
  | stuck_issue
  | normal_iteration
  deriving DecidableEq, Repr

/-- Embedding of `inferRepetitionInterpretation`. -/
def inferRepetitionInterpretation (kind : RepKind) (count : ℕ) (texts : List Str)
    (fileChangeAround : ℕ) : Interp :=
  if 3 ≤ count ∧ kind = .exact_repeat ∧ (hasStuckLanguage texts ∨ fileChangeAround ≤ 1) then
    .stuck_issue
  else if 3 ≤ count ∧ max 2 (count - 1) ≤ fileChangeAround then .feature_polish
  else .normal_iteration

/-- Repetition cluster record. -/
structure RepetitionCluster where
  id : Str
  topic : Str
  count : ℕ
  instructionIds : List Str
  kind : RepKind
  interpretation : Interp
  deriving DecidableEq, Repr

/-- Rank of a kind name under `localeCompare` (the two ASCII literals
`exact_repeat < topic_repeat` compare lexicographically). -/
def kindRank : RepKind → ℕ
  | .exact_repeat => 0
  | .topic_repeat => 1

/-- Comparator of the cluster ranking (count descending, ties by kind name). -/
def candLE (a b : RepetitionCluster) : Prop :=
  if b.count = a.count then kindRank a.kind ≤ kindRank b.kind else b.count ≤ a.count

instance : DecidableRel candLE := fun a b => by unfold candLE; infer_instance

/-- Embedding of `topic.replaceAll("|", " / ")`. -/
def replaceBar : Str → Str
  | [] => []
  | c :: r => if c = '|' then (" / ").data ++ replaceBar r else c :: replaceBar r

/-- The exact-repetition candidate of one normalized-text group. -/
def exactCandidate (hashFn : List SPart → Str) (evidence : List EvidenceItem)
    (normalized : Str) (group : List UserInstruction) : RepetitionCluster :=
  let fileChangeAround :=
    computeFileChangeAroundInstructions (group.map (·.ts)) evidence (20 * 60 * 1000)
  { id := stableId hashFn [.s ("repeat").data, .s ("exact").data, .s normalized]
    topic :=
      match group with
      | first :: _ =>
        let j := joinWith (" / ").data (first.tokens.take 3)
        if j.isEmpty then normalized.take 80 else j
      | [] => normalized.take 80
    kind := .exact_repeat
    instructionIds := group.map (·.id)
    count := group.length
    interpretation :=
      inferRepetitionInterpretation .exact_repeat group.length (group.map (·.text))
        fileChangeAround }

/-- The topic-repetition candidate of one topic-key group. -/
def topicCandidate (hashFn : List SPart → Str) (evidence : List EvidenceItem)
    (topic : Str) (group : List UserInstruction) : RepetitionCluster :=
  let fileChangeAround :=
    computeFileChangeAroundInstructions (group.map (·.ts)) evidence (20 * 60 * 1000)
  { id := stableId hashFn [.s ("repeat").data, .s ("topic").data, .s topic]
    topic := replaceBar topic
    kind := .topic_repeat
    instructionIds := group.map (·.id)
    count := group.length
    interpretation :=
      inferRepetitionInterpretation .topic_repeat group.length (group.map (·.text))
        fileChangeAround }

/-- Embedding of `buildRepetitionClusters`. -/
def buildRepetitionClusters (hashFn : List SPart → Str) (instructions : List UserInstruction)
    (evidence : List EvidenceItem) : List RepetitionCluster :=
  let scopedInstructions := instructions.filter fun item => !(isTrivialInstruction item)
  let byNormalized :=
    groupByKeyF (fun i => i.normalized) (scopedInstructions.filter fun i => !i.normalized.isEmpty)
  let byTopic :=
    groupByKeyF (fun i => joinWith ("|").data (topTopicTokens i.tokens))
      (scopedInstructions.filter fun i => !(topTopicTokens i.tokens).isEmpty)
  let exactCandidates := byNormalized.filterMap fun g =>
    if g.2.length < 2 then none else some (exactCandidate hashFn evidence g.1 g.2)
  let topicCandidates := byTopic.filterMap fun g =>
    if g.2.length < 2 then none
    else
      let allNormalizedEqual :=
        match g.2 with
        | first :: _ => g.2.all fun item => item.normalized == first.normalized
        | [] => true
      if allNormalizedEqual then none else some (topicCandidate hashFn evidence g.1 g.2)
  ((List.insertionSort candLE (exactCandidates ++ topicCandidates)).take 12).map fun c =>
    { c with topic := if c.topic.isEmpty then ("general").data else c.topic }

/-! ### FeatureDeltaExtractor -/

namespace JNum

/-- Exact addition of JavaScript numbers. -/
def add (a b : JNum) : JNum :=
  ⟨a.num * b.den + b.num * a.den, (a.den1 + 1) * (b.den1 + 1) - 1⟩

/-- Exact division by a positive count. -/
def divNat (q : JNum) (n : ℕ) : JNum := ⟨q.num, (q.den1 + 1) * n - 1⟩

/-- Embedding of `Math.min`. -/
def jmin (a b : JNum) : JNum := if jle a b then a else b

/-- Embedding of `Number(x.toFixed(3))` (see `round2`). -/
def round3 (q : JNum) : JNum :=
  ⟨Int.fdiv (2000 * q.num + q.den) (2 * q.den), 999⟩

end JNum

/-- Accumulated per-area group of `buildFeatureDeltas`. -/
structure FileAreaGroup where
  area : Str
  projectId : Option Str
  files : List Str
  evidenceIds : List Str
  confidenceSum : JNum
  count : ℕ
  firstTs : ℤ
  lastTs : ℤ
  deriving DecidableEq, Repr

/-- The `existing`-branch of the grouping loop (`files` is a `Set` kept in
insertion order). -/
def areaGroupStep (group : FileAreaGroup) (item : EvidenceItem) : FileAreaGroup :=
  { group with
    files := if item.sourcePath ∈ group.files then group.files else group.files ++ [item.sourcePath]
    evidenceIds := group.evidenceIds ++ [item.id]
    confidenceSum := JNum.add group.confidenceSum item.confidence
    count := group.count + 1
    firstTs := min group.firstTs item.ts
    lastTs := max group.lastTs item.ts }

/-- Aggregates the members of one `(projectId, area)` key, first member
creating the group as in the source. -/
def mkAreaGroup (kit : TextKit) (scope : ProjectScope) : List EvidenceItem → FileAreaGroup
  | [] => ⟨[], none, [], [], JNum.ofInt 0, 0, 0, 0⟩
  | first :: rest =>
    rest.foldl areaGroupStep
      { area := kit.deriveArea scope first.sourcePath first.projectId
        projectId := first.projectId
        files := [first.sourcePath]
        evidenceIds := [first.id]
        confidenceSum := first.confidence
        count := 1
        firstTs := first.ts
        lastTs := first.ts }

/-- Comparator of the area-group ranking (count descending, then recency). -/
def agLE (a b : FileAreaGroup) : Prop :=
  if b.count = a.count then b.lastTs ≤ a.lastTs else b.count ≤ a.count

instance : DecidableRel agLE := fun a b => by unfold agLE; infer_instance

/-- Result of `findNearestEvidence`. -/
structure NearestEvidence where
  before : Option EvidenceItem
  after : Option EvidenceItem
  phraseBefore : Option Str
  phraseAfter : Option Str

/-- Embedding of `pickBest` inside `findNearestEvidence`. -/
def pickBestCandidate (kit : TextKit) (candidates : List EvidenceItem) (mode : BAMode)
    (anchorTs : ℤ) (areaTokens : List Str) : Option EvidenceItem :=
  let ranked := List.insertionSort scoreLE
    (candidates.map fun item => (item, kit.scoreEvidenceCandidate item mode anchorTs areaTokens))
  match ranked.head? with
  | none => none
  | some top => if JNum.jle top.2 (JNum.ofInt 0) then none else some top.1

/-- Embedding of `findNearestEvidence`. -/
def findNearestEvidence (kit : TextKit) (evidence : List EvidenceItem)
    (group : FileAreaGroup) : NearestEvidence :=
  let windowStart := group.firstTs - 45 * 60 * 1000
  let windowEnd := group.lastTs + 45 * 60 * 1000
  let scopedItems := evidence.filter fun item =>
    !(decide (item.ts < windowStart) || decide (windowEnd < item.ts))
      && (match group.projectId with
          | none => true
          | some pid => item.projectId == some pid)
  let areaTokens :=
    kit.tokenize (kit.normalizeInstructionText (group.area.map fun c => if c = '/' then ' ' else c))
  let beforeCandidates := scopedItems.filter fun item =>
    decide (item.ts ≤ group.firstTs) && (item.type == .user_text || item.type == .assistant_text)
  let afterCandidates := scopedItems.filter fun item =>
    decide (group.lastTs ≤ item.ts) && (item.type == .tool_result || item.type == .assistant_text)
  let before := pickBestCandidate kit beforeCandidates .before group.firstTs areaTokens
  let after := pickBestCandidate kit afterCandidates .after group.lastTs areaTokens
  let phraseSources :=
    ([before.map (·.detail), after.map (·.detail)].filterMap id).filter fun s => !s.isEmpty
  let phrase := (phraseSources.filterMap fun src =>
    let b := kit.captureBefore src
    let a := kit.captureAfter src
    if b.isSome || a.isSome then some (b, a) else none).head?
  match phrase with
  | some p => { before := before, after := after, phraseBefore := p.1, phraseAfter := p.2 }
  | none => { before := before, after := after, phraseBefore := none, phraseAfter := none }

/-- Inferred before/after delta of one code area. -/
structure FeatureDelta where
  id : Str
  area : Str
  files : List Str
  before : Str
  after : Str
  basis : List Str
  confidence : JNum
  deriving DecidableEq, Repr

/-- Embedding of `uniqIds` (skip missing entries, keep first occurrences). -/
def uniqIds (items : List (Option Str)) : List Str := dedupSeen [] (items.filterMap id)

/-- Lexicographic comparison by code unit, embedding the default
`Array.prototype.sort()` on the ASCII-free-of-surrogates paths involved. -/
def strLeB : Str → Str → Bool
  | [], _ => true
  | _ :: _, [] => false
  | a :: as, b :: bs => if a = b then strLeB as bs else decide (a < b)

/-- Propositional form of `strLeB`. -/
def strLE (a b : Str) : Prop := strLeB a b = true

instance : DecidableRel strLE := fun a b => inferInstanceAs (Decidable (_ = _))

/-- Embedding of `buildFeatureDeltas`. -/
def buildFeatureDeltas (hashFn : List SPart → Str) (kit : TextKit) (scope : ProjectScope)
    (evidence : List EvidenceItem) : List FeatureDelta :=
  let fileChanges := evidence.filter fun item => item.type == .file_change
  if fileChanges.isEmpty then []
  else
    let byArea := groupByKeyF
      (fun item =>
        (item.projectId.getD ("-").data) ++ ("|").data
          ++ kit.deriveArea scope item.sourcePath item.projectId)
      fileChanges
    let groups := byArea.map fun g => mkAreaGroup kit scope g.2
    ((List.insertionSort agLE groups).take 10).map fun group =>
      let nearest := findNearestEvidence kit evidence group
      let files := (List.insertionSort strLE group.files).take 6
      let before :=
        match nearest.phraseBefore with
        | some p => p
        | none =>
          match nearest.before with
          | some e =>
            kit.summarizeEvidenceText e.detail
              (("Started working on issues in ").data ++ group.area)
          | none => ("Started from the prior implementation and behavior in ").data ++ group.area
      let after :=
        match nearest.phraseAfter with
        | some p => p
        | none =>
          match nearest.after with
          | some e =>
            kit.summarizeEvidenceText e.detail
              (("Completed and validated changes in ").data ++ group.area)
          | none =>
            ("Applied and saved changes in ").data
              ++ joinWith (", ").data (files.map kit.basename)
      let basis := uniqIds
        ((group.evidenceIds.take 8).map some
          ++ [nearest.before.map (·.id), nearest.after.map (·.id)])
      let confidence := JNum.round3
        (JNum.jmin (JNum.frac 99 100) (JNum.divNat group.confidenceSum (max 1 group.count)))
      { id := stableId hashFn
          [.s ("delta").data, .s (group.projectId.getD ("-").data), .s group.area,
           .n group.firstTs, .n group.lastTs]
        area := group.area
        files := files
        before := before
        after := after
        basis := basis
        confidence := confidence }

/-! ### NarrativeSegmenter -/

/-- Contiguous phase window. -/
structure SegmentWindow where
  start : ℤ
  endTs : ℤ
  events : List TimelineEvent
  deriving DecidableEq, Repr

/-- Embedding of `splitSegments`. -/
def splitSegments (timeline : List TimelineEvent) : List SegmentWindow :=
  match timeline with
  | [] => []
  | t0 :: _ =>
    let step := timeline.foldl
      (fun (acc : List SegmentWindow × SegmentWindow) event =>
        let segments := acc.1
        let current := acc.2
        let hitGap :=
          match current.events.getLast? with
          | some previous => decide (2 * 60 * 60 * 1000 < event.ts - previous.ts)
          | none => false
        let hitSize := decide (1200 ≤ current.events.length)
        if current.events.length != 0 && (hitGap || hitSize) then
          (segments ++ [current], { start := event.ts, endTs := event.ts, events := [event] })
        else
          (segments, { current with events := current.events ++ [event], endTs := event.ts }))
      ([], { start := t0.ts, endTs := t0.ts, events := [] })
    (if step.2.events.length != 0 then step.1 ++ [step.2] else step.1).take 8

/-- Embedding of `phaseTitle`. -/
def phaseTitle (kit : TextKit) (segment : SegmentWindow) (majorEvents : List MajorEvent)
    (evidence : List EvidenceItem) (idx : ℕ) : Str :=
  let phase := ("Phase ").data ++ kit.numToStr (idx + 1) ++ (": ").data
  let hasGoal := majorEvents.any fun item =>
    item.type == .GOAL && decide (segment.start ≤ item.ts) && decide (item.ts ≤ segment.endTs)
  if hasGoal then phase ++ ("Delivery progress").data
  else
    let hasRisk := majorEvents.any fun item =>
      (item.type == .PENALTY || item.type == .YELLOW_CARD || item.type == .RED_CARD)
        && decide (segment.start ≤ item.ts) && decide (item.ts ≤ segment.endTs)
    if hasRisk then phase ++ ("Issue handling").data
    else
      let fileChanges := (evidence.filter fun item =>
        item.type == .file_change
          && decide (segment.start ≤ item.ts) && decide (item.ts ≤ segment.endTs)).length
      if 0 < fileChanges then phase ++ ("Implementation iteration").data
      else phase ++ ("Requirement shaping").data

/-- Embedding of `summarizeSegment`. -/
def summarizeSegment (kit : TextKit) (segment : SegmentWindow) (majorEvents : List MajorEvent)
    (evidence : List EvidenceItem) (instructions : List UserInstruction) : Str :=
  let users := (segment.events.filter fun e => e.actor == .user).length
  let assistants := (segment.events.filter fun e => e.actor == .assistant).length
  let systems := (segment.events.filter fun e => e.actor == .system).length
  let evidenceInSegment := evidence.filter fun item =>
    decide (segment.start ≤ item.ts) && decide (item.ts ≤ segment.endTs)
  let fileChanges := evidenceInSegment.filter fun item => item.type == .file_change
  let toolOps := (evidenceInSegment.filter fun item =>
    item.type == .tool_call || item.type == .tool_result).length
  let majors := majorEvents.filter fun item =>
    decide (segment.start ≤ item.ts) && decide (item.ts ≤ segment.endTs)
  let instructionsInSegment := instructions.filter fun item =>
    decide (segment.start ≤ item.ts) && decide (item.ts ≤ segment.endTs)
  let topIntent := joinWith (" / ").data
    ((dedupSeen []
      ((instructionsInSegment.flatMap fun item => item.tokens.take 2).filter
        fun t => !t.isEmpty)).take 4)
  let majorSummary :=
    if 0 < majors.length then
      ("Detected ").data ++ kit.numToStr majors.length
        ++ (" major events in this phase (").data
        ++ joinWith (", ").data ((majors.take 3).map fun item => majorTypeStr item.type)
        ++ (").").data
    else ("No clear major event in this phase; work mainly progressed steadily.").data
  let intentLine :=
    if !topIntent.isEmpty then ("User intent concentrated on ").data ++ topIntent ++ (".").data
    else ("User instructions mostly refined the same active task.").data
  joinWith (" ").data
    [("This phase has ").data ++ kit.numToStr segment.events.length
       ++ (" timeline events (user ").data ++ kit.numToStr users
       ++ (", assistant ").data ++ kit.numToStr assistants
       ++ (", system ").data ++ kit.numToStr systems
       ++ ("), ").data ++ kit.numToStr toolOps
       ++ (" tool call/results, and ").data ++ kit.numToStr fileChanges.length
       ++ (" file changes.").data,
     intentLine, majorSummary]

/-- Contiguous narrative phase. -/
structure TimelineNarrativeSegment where
  id : Str
  start : ℤ
  endTs : ℤ
  title : Str
  summary : Str
  evidenceIds : List Str
  deriving DecidableEq, Repr

/-- Embedding of `buildTimelineNarrative`. -/
def buildTimelineNarrative (hashFn : List SPart → Str) (kit : TextKit)
    (timeline : List TimelineEvent) (majorEvents : List MajorEvent)
    (evidence : List EvidenceItem) (instructions : List UserInstruction) :
    List TimelineNarrativeSegment :=
  (splitSegments timeline).enum.map fun p =>
    let idx : ℕ := p.1
    let segment := p.2
    let evidenceIds := ((evidence.filter fun item =>
      decide (segment.start ≤ item.ts) && decide (item.ts ≤ segment.endTs)).take 12).map (·.id)
    { id := stableId hashFn
        [.s ("narrative").data, .n (idx : ℤ), .n segment.start, .n segment.endTs]
      start := segment.start
      endTs := segment.endTs
      title := phaseTitle kit segment majorEvents evidence idx
      summary := summarizeSegment kit segment majorEvents evidence instructions
      evidenceIds := evidenceIds }

/-- Top-level insights output. -/
structure AnalysisInsights where
  instructions : List UserInstruction
  repetition : List RepetitionCluster
  featureDeltas : List FeatureDelta
  timelineNarrative : List TimelineNarrativeSegment
  deriving Repr

/-- Input record of `analyzeInsights` (the `query` field of the source is
never read by the function and is kept as its raw text). -/
structure AnalyzeInsightsInput where
  queryRaw : Str
  scope : ProjectScope
  timeline : List TimelineEvent
  evidence : List EvidenceItem
  majorEvents : List MajorEvent

/-- Embedding of `analyzeInsights`. -/
def analyzeInsights (hashFn : List SPart → Str) (kit : TextKit)
    (input : AnalyzeInsightsInput) : AnalysisInsights :=
  let instructions := buildUserInstructions hashFn kit input.timeline
  let repetition := buildRepetitionClusters hashFn instructions input.evidence
  let featureDeltas := buildFeatureDeltas hashFn kit input.scope input.evidence
  let timelineNarrative :=
    buildTimelineNarrative hashFn kit input.timeline input.majorEvents input.evidence instructions
  { instructions := instructions
    repetition := repetition
    featureDeltas := featureDeltas
    timelineNarrative := timelineNarrative }

/-! ### Claim theorems -/

/-- C6: `assertPathAllowed` succeeds exactly when the resolved, normalized
path equals one of the (resolved, normalized) allowed roots or extends one of
them past a separator (path-segment descent, not a bare string prefix), and
in both outcomes it appends exactly one audit record carrying the decision,
doing nothing else; the `false` component embeds the `throw`. -/
theorem c6_assertPathAllowed_spec (normResolve : Str → Str) (sep : Char) (now : ℤ)
    (filePath : Str) (allowedRoots : List Str) (audit : List PathAccessRecord) (action : Str) :
    ((assertPathAllowed normResolve sep now filePath allowedRoots audit action).2 = true
      ↔ ∃ root ∈ allowedRoots,
          normResolve filePath = normResolve root
          ∨ jsStartsWith (normResolve filePath) (normResolve root ++ [sep]) = true)
    ∧ (assertPathAllowed normResolve sep now filePath allowedRoots audit action).1
        = audit ++
          [{ path := normResolve filePath
             action := action
             allowed := (assertPathAllowed normResolve sep now filePath allowedRoots audit action).2
             reason :=
               if (assertPathAllowed normResolve sep now filePath allowedRoots audit action).2 then
                 ("within client whitelist").data
               else ("outside client whitelist").data
             ts := now }] := by
  have key :
      (allowedRoots.any fun root =>
          normResolve filePath == normResolve root
            || jsStartsWith (normResolve filePath) (normResolve root ++ [sep])) = true
        ↔ ∃ root ∈ allowedRoots,
            normResolve filePath = normResolve root
            ∨ jsStartsWith (normResolve filePath) (normResolve root ++ [sep]) = true := by
    rw [List.any_eq_true]
    constructor
    · rintro ⟨root, hroot, hp⟩
      rcases Bool.or_eq_true_iff.mp hp with hp | hp
      · exact ⟨root, hroot, Or.inl (by simpa using hp)⟩
      · exact ⟨root, hroot, Or.inr hp⟩
    · rintro ⟨root, hroot, hp | hp⟩
      · exact ⟨root, hroot, Bool.or_eq_true_iff.mpr (Or.inl (by simpa using hp))⟩
      · exact ⟨root, hroot, Bool.or_eq_true_iff.mpr (Or.inr hp)⟩
  by_cases h :
      (allowedRoots.any fun root =>
        normResolve filePath == normResolve root
          || jsStartsWith (normResolve filePath) (normResolve root ++ [sep])) = true
  · constructor
    · simp only [assertPathAllowed, h]
      simpa using key.mp h
    · simp [assertPathAllowed, recordAudit, h]
  · have h' :
        (allowedRoots.any fun root =>
          normResolve filePath == normResolve root
            || jsStartsWith (normResolve filePath) (normResolve root ++ [sep])) = false :=
      Bool.eq_false_iff.mpr h
    constructor
    · simp only [assertPathAllowed, h']
      constructor
      · intro hfalse
        simp at hfalse
      · intro hex
        exact absurd (key.mpr hex) h
    · simp [assertPathAllowed, recordAudit, h']

/-- The single-project root of the sibling-attribution scenario (test fixture
of `tests` in the repository). -/
def projP1 : ProjectRef := ⟨("p1").data, ("/tmp/w/proj").data⟩

/-- The sibling project whose root shares a string prefix with `projP1`. -/
def projP2 : ProjectRef := ⟨("p2").data, ("/tmp/w/proj2").data⟩

/-- Timeline event whose working directory is the sibling root. -/
def siblingEvent : TimelineEvent :=
  { id := ("evt-1").data
    client := ("codex").data
    ts := 1000
    label := ("assistant note").data
    detail := ("work happened in sibling project").data
    actor := .assistant
    tags := [("codex").data, ("assistant_message").data]
    sourcePath := ("/tmp/w/session.jsonl").data
    mdCwd := some (("/tmp/w/proj2").data)
    mdProjectRoot := none
    mdProject := none }

/-- C1: the code misattributes sibling directories.  With the single-project
scope rooted at `/tmp/w/proj`, an event whose `cwd` is the sibling
`/tmp/w/proj2` is attributed to `p1` (the claim, the specification and the
repository's own test require `projectId` to stay undefined), and under an
`all` scope listing both projects the event resolves to `p1` instead of the
sibling's own id `p2`, because `matchProjectId` uses a bare string
`startsWith` instead of a path-segment comparison.  The paths involved are
absolute and normalized, where node's `normalize(resolve(·))` is the
identity, instantiated here as `normResolve := id`. -/
theorem c1_matchProjectId_sibling_misattributed :
    matchProjectId id (ProjectScope.single projP1) (("/tmp/w/proj2").data) = some (("p1").data)
    ∧ matchProjectId id (ProjectScope.all [projP1, projP2]) (("/tmp/w/proj2").data)
        = some (("p1").data)
    ∧ (pushTimelineEvidence (fun _ => []) id
        { client := ("codex").data
          scope := ProjectScope.single projP1
          range := { start := 0, endTs := 10000 }
          timeline := [siblingEvent] }).map (·.projectId)
        = [some (("p1").data)] := by
  decide

/-- First neutral event of the bootstrap regression test in the repository
(`bootstrap rules do not force neutral events into high-risk types`). -/
def neutralE1 : TimelineEvent :=
  { id := ("n1").data
    client := ("codex").data
    ts := 1
    label := ("edited file").data
    detail := ("updated tests").data
    actor := .assistant
    tags := [("codex").data, ("assistant_message").data]
    sourcePath := ("/tmp/n1").data
    mdCwd := none
    mdProjectRoot := none
    mdProject := none }

/-- Second neutral event of the bootstrap regression test. -/
def neutralE2 : TimelineEvent :=
  { neutralE1 with id := ("n2").data, ts := 2, sourcePath := ("/tmp/n2").data }

/-- The neutral two-event timeline of the bootstrap regression test. -/
def neutralTimeline : List TimelineEvent := [neutralE1, neutralE2]

/-- C2: bootstrapped rules fire with no seed token present.  On the neutral
timeline of the repository's own regression test, `bootstrapRulesFromTimeline`
adds the globally most frequent words (`edited`, `file`, `updated`) to every
rule's `anyOf` — with no occurs-at-least-twice-among-weak-matches mining —
and classification then emits a `RED_CARD` major event for both neutral
events although none of the `red-blocker` seed tokens occurs in their text
(the test asserts zero major events). -/
theorem c2_bootstrapped_rule_fires_without_seed :
    (classifyEvents (fun _ => []) neutralTimeline
        { rules := bootstrapRulesFromTimeline neutralTimeline none
          followUpWindow := 10, followUpCount := 3, llm := none }).length = 2
    ∧ ((classifyEvents (fun _ => []) neutralTimeline
        { rules := bootstrapRulesFromTimeline neutralTimeline none
          followUpWindow := 10, followUpCount := 3, llm := none }).all fun m =>
          m.type == MajorType.RED_CARD && m.ruleId == ("red-blocker").data) = true
    ∧ ((DEFAULT_RULES.filter fun r => r.id == ("red-blocker").data).all fun r =>
          r.anyOf.all fun tok => !(jsIncludes (eventText neutralE1) (lowerStr tok))) = true
    ∧ ((bootstrapRulesFromTimeline neutralTimeline none).all fun r =>
          ("edited").data ∈ r.anyOf) = true := by
  decide

/-- When enrichment is disabled, the LLM step is the identity. -/
theorem applyLLM_disabled {o : ClassifyOptions}
    (h : ∀ cfg, o.llm = some cfg → cfg.enabled = false)
    (t : List TimelineEvent) (m : MajorEvent) : applyLLM o t m = m := by
  unfold applyLLM
  cases hllm : o.llm with
  | none => rfl
  | some cfg => simp [h cfg hllm]

/-- The LLM step can only replace the summary field. -/
theorem applyLLM_preserves (o : ClassifyOptions) (t : List TimelineEvent) (m : MajorEvent) :
    (applyLLM o t m).triggerEventId = m.triggerEventId
    ∧ (applyLLM o t m).followUpEventIds = m.followUpEventIds := by
  unfold applyLLM
  cases hllm : o.llm with
  | none => exact ⟨rfl, rfl⟩
  | some cfg =>
    cases he : cfg.enabled with
    | false => simp [he]
    | true =>
      cases hsum : cfg.summarize m t with
      | none => simp [he, hsum]
      | some s =>
        cases hs : s.isEmpty with
        | true => simp [he, hsum, hs]
        | false => simp [he, hsum, hs]

/-- C5: `classifyEvents` is deterministic when LLM enrichment is disabled.
Two option records agreeing on the rules and the two follow-up parameters,
each with enrichment absent or disabled (possibly carrying different
enrichment oracles), produce identical major-event lists — ids, scores,
follow-up links and ordering included (list equality is component-wise) —
so classification is a pure function of
`(timeline, rules, followUpWindow, followUpCount)`. -/
theorem c5_classifyEvents_deterministic (hashFn : List SPart → Str)
    (timeline : List TimelineEvent) (o₁ o₂ : ClassifyOptions)
    (hrules : o₁.rules = o₂.rules)
    (hw : o₁.followUpWindow = o₂.followUpWindow)
    (hc : o₁.followUpCount = o₂.followUpCount)
    (h₁ : ∀ cfg, o₁.llm = some cfg → cfg.enabled = false)
    (h₂ : ∀ cfg, o₂.llm = some cfg → cfg.enabled = false) :
    classifyEvents hashFn timeline o₁ = classifyEvents hashFn timeline o₂ := by
  unfold classifyEvents
  refine congrArg (fun f => List.filterMap f (List.range timeline.length)) (funext fun i => ?_)
  unfold classifyStep
  cases hget : timeline.get? i with
  | none => rfl
  | some event =>
    dsimp only
    rw [hrules, hw, hc]
    cases htop : topRule event o₂.rules with
    | none => rfl
    | some mtch =>
      dsimp only
      rw [applyLLM_disabled h₁, applyLLM_disabled h₂]

/-- C5 witness: the concrete neutral timeline classified with enrichment
absent and with a disabled enrichment carrying a non-trivial oracle. -/
theorem c5_witness :
    classifyEvents (fun _ => []) neutralTimeline
        { rules := DEFAULT_RULES, followUpWindow := 10, followUpCount := 3, llm := none }
      = classifyEvents (fun _ => []) neutralTimeline
        { rules := DEFAULT_RULES, followUpWindow := 10, followUpCount := 3
          llm := some { enabled := false, summarize := fun _ _ => some (("ignored").data) } } :=
  c5_classifyEvents_deterministic (fun _ => []) neutralTimeline _ _ rfl rfl rfl
    (fun _ h => Option.noConfusion h) (fun _ h => by cases h; rfl)

/-- C8: every emitted major event's follow-up links are exactly the ids of
the first `min(followUpCount, followUpWindow)` timeline events after its
trigger index, truncated at the end of the timeline (index-based, not
time-based). -/
theorem c8_followUps_index_based (hashFn : List SPart → Str)
    (timeline : List TimelineEvent) (options : ClassifyOptions) (m : MajorEvent)
    (hm : m ∈ classifyEvents hashFn timeline options) :
    ∃ i event, timeline.get? i = some event ∧ m.triggerEventId = event.id
      ∧ m.followUpEventIds =
          ((timeline.drop (i + 1)).take
            (min options.followUpCount options.followUpWindow)).map (·.id) := by
  unfold classifyEvents at hm
  rw [List.mem_filterMap] at hm
  obtain ⟨i, _, hstep⟩ := hm
  refine ⟨i, ?_⟩
  unfold classifyStep at hstep
  cases hget : timeline.get? i with
  | none => rw [hget] at hstep; exact Option.noConfusion hstep
  | some event =>
    rw [hget] at hstep
    dsimp only at hstep
    cases htop : topRule event options.rules with
    | none => rw [htop] at hstep; exact Option.noConfusion hstep
    | some mtch =>
      rw [htop] at hstep
      dsimp only at hstep
      simp only [Option.some.injEq] at hstep
      refine ⟨event, rfl, ?_, ?_⟩
      · rw [← hstep, (applyLLM_preserves options timeline _).1]
      · rw [← hstep, (applyLLM_preserves options timeline _).2]
        show ((jsSlice timeline (i + 1) (i + 1 + options.followUpWindow)).take
          options.followUpCount).map (·.id) = _
        unfold jsSlice
        rw [Nat.add_sub_cancel_left, List.take_take]

/-- Timeline event matching the `goal-delivery` rule (witness fixture). -/
def goalEvent : TimelineEvent :=
  { id := ("f1").data, client := ("codex").data, ts := 5, label := ("fixed").data,
    detail := [], actor := .assistant, tags := [], sourcePath := ("/tmp/f1").data,
    mdCwd := none, mdProjectRoot := none, mdProject := none }

/-- Timeline event matching no rule (witness fixture). -/
def plainEvent : TimelineEvent :=
  { goalEvent with id := ("f2").data, ts := 6, label := ("zz").data }

/-- C8 witness: the theorem applied to a concrete two-event timeline whose
first event triggers `goal-delivery`; the follow-up list is the single
remaining event. -/
theorem c8_witness :
    ∃ i event, [goalEvent, plainEvent].get? i = some event
      ∧ (({ id := [], client := ("codex").data, ts := 5, type := .GOAL,
            title := ("GOAL: fixed").data, summary := [], score := ⟨120, 99⟩,
            triggerEventId := ("f1").data, followUpEventIds := [("f2").data],
            ruleId := ("goal-delivery").data } : MajorEvent)).triggerEventId = event.id
      ∧ (({ id := [], client := ("codex").data, ts := 5, type := .GOAL,
            title := ("GOAL: fixed").data, summary := [], score := ⟨120, 99⟩,
            triggerEventId := ("f1").data, followUpEventIds := [("f2").data],
            ruleId := ("goal-delivery").data } : MajorEvent)).followUpEventIds =
          (([goalEvent, plainEvent].drop (i + 1)).take (min 2 5)).map (·.id) :=
  c8_followUps_index_based (fun _ => []) [goalEvent, plainEvent]
    { rules := DEFAULT_RULES, followUpWindow := 5, followUpCount := 2, llm := none } _ (by decide)

/-- Boolean de Morgan over `List.all`. -/
theorem bool_not_all (l : List α) (p : α → Bool) :
    (!(l.all p)) = l.any fun x => !(p x) := by
  induction l with
  | nil => simp
  | cons a l ih => simp [Bool.not_and, ih]

/-- Score formula exactly as claim C3 words it: the count of `anyOf` tokens
present in the lowercased text times the weight, forced to 0 if any `not`
token is present or any `allOf` token is absent. -/
def claimScore (rule : EventRule) (event : TimelineEvent) : JNum :=
  let text := eventText event
  if (rule.not.getD []).any (fun token => jsIncludes text (lowerStr token))
      || (rule.allOf.getD []).any (fun token => !(jsIncludes text (lowerStr token))) then
    JNum.ofInt 0
  else
    JNum.mulNat (rule.anyOf.countP fun token => jsIncludes text (lowerStr token))
      (rule.weight.getD (JNum.ofInt 1))

/-- The source's sequential guards compute the claim's score formula. -/
theorem scoreRule_eq_claimScore (rule : EventRule) (event : TimelineEvent) :
    scoreRule rule event = claimScore rule event := by
  unfold scoreRule claimScore
  dsimp only
  have hall :
      (match rule.allOf with
        | some l => !l.isEmpty && !(l.all fun token => jsIncludes (eventText event) (lowerStr token))
        | none => false)
      = ((rule.allOf.getD []).any fun token =>
          !(jsIncludes (eventText event) (lowerStr token))) := by
    cases rule.allOf with
    | none => simp
    | some l =>
      cases l with
      | nil => simp
      | cons a l => simp [bool_not_all]
  have hnot :
      (match rule.not with
        | some l => !l.isEmpty && (l.any fun token => jsIncludes (eventText event) (lowerStr token))
        | none => false)
      = ((rule.not.getD []).any fun token => jsIncludes (eventText event) (lowerStr token)) := by
    cases rule.not with
    | none => simp
    | some l =>
      cases l with
      | nil => simp
      | cons a l => simp
  rw [hall, hnot]
  cases hA : ((rule.allOf.getD []).any fun token =>
      !(jsIncludes (eventText event) (lowerStr token))) <;>
    cases hN : ((rule.not.getD []).any fun token =>
      jsIncludes (eventText event) (lowerStr token)) <;>
    simp [hA, hN]

theorem scoreLE_total (a b : α × JNum) : scoreLE a b ∨ scoreLE b a :=
  JNum.jle_total b.2 a.2

theorem scoreLE_trans {a b c : α × JNum} (h₁ : scoreLE a b) (h₂ : scoreLE b c) :
    scoreLE a c :=
  JNum.jle_trans h₂ h₁

/-- A split of a filtered map lifts to a split of the original list. -/
theorem filter_map_split {f : α → β} {p : β → Bool} {l : List α} {c₁ c₂ : List β} {w : β}
    (h : (l.map f).filter p = c₁ ++ w :: c₂) :
    ∃ l₁ x l₂, l = l₁ ++ x :: l₂ ∧ f x = w ∧ (l₁.map f).filter p = c₁ := by
  induction l generalizing c₁ with
  | nil => cases c₁ <;> simp at h
  | cons a l ih =>
    by_cases hp : p (f a) = true
    · rw [List.map_cons, List.filter_cons_of_pos hp] at h
      cases c₁ with
      | nil =>
        simp only [List.nil_append] at h
        injection h with hw hrest
        exact ⟨[], a, l, rfl, hw, by simp⟩
      | cons c c₁ =>
        simp only [List.cons_append] at h
        injection h with hc hrest
        obtain ⟨l₁, x, l₂, hl, hfx, hfilter⟩ := ih hrest
        refine ⟨a :: l₁, x, l₂, by rw [hl]; rfl, hfx, ?_⟩
        rw [List.map_cons, List.filter_cons_of_pos hp, hfilter, hc]
    · have hp' : p (f a) = false := Bool.eq_false_iff.mpr hp
      rw [List.map_cons, List.filter_cons_of_neg (by simp [hp'])] at h
      obtain ⟨l₁, x, l₂, hl, hfx, hfilter⟩ := ih h
      refine ⟨a :: l₁, x, l₂, by rw [hl]; rfl, hfx, ?_⟩
      rw [List.map_cons, List.filter_cons_of_neg (by simp [hp']), hfilter]

/-- The trigger ids of the classification output form a subsequence of the
timeline's event ids (at most one major event per timeline event). -/
theorem classify_triggers_sublist (hashFn : List SPart → Str)
    (timeline : List TimelineEvent) (options : ClassifyOptions) :
    List.Sublist ((classifyEvents hashFn timeline options).map (·.triggerEventId))
      (timeline.map (·.id)) := by
  suffices h : ∀ n k,
      List.Sublist (((List.range' k n).filterMap (classifyStep hashFn timeline options)).map
        (·.triggerEventId)) ((timeline.drop k).map (·.id)) by
    have := h timeline.length 0
    simpa [classifyEvents, List.range_eq_range'] using this
  intro n
  induction n with
  | zero => intro k; simp
  | succ n ih =>
    intro k
    rw [List.range'_succ, List.filterMap_cons]
    cases hstep : classifyStep hashFn timeline options k with
    | none =>
      refine (ih (k + 1)).trans (List.Sublist.map _ ?_)
      have : timeline.drop (k + 1) = (timeline.drop k).drop 1 := by
        rw [List.drop_drop]
      rw [this]
      exact List.drop_sublist 1 _
    | some m =>
      have hk : ∃ event, timeline.get? k = some event ∧ m.triggerEventId = event.id := by
        unfold classifyStep at hstep
        cases hget : timeline.get? k with
        | none => rw [hget] at hstep; exact Option.noConfusion hstep
        | some event =>
          rw [hget] at hstep
          dsimp only at hstep
          cases htop : topRule event options.rules with
          | none => rw [htop] at hstep; exact Option.noConfusion hstep
          | some mtch =>
            rw [htop] at hstep
            dsimp only at hstep
            simp only [Option.some.injEq] at hstep
            exact ⟨event, rfl, by rw [← hstep, (applyLLM_preserves options timeline _).1]⟩
      obtain ⟨event, hget, htrig⟩ := hk
      have hlt : k < timeline.length := by
        by_contra hge
        rw [List.get?_eq_none.mpr (by omega)] at hget
        exact Option.noConfusion hget
      have hdrop : timeline.drop k = event :: timeline.drop (k + 1) := by
        have := List.drop_eq_getElem_cons hlt
        rwa [show timeline[k] = event from by
          have := List.get?_eq_getElem? timeline k
          rw [hget] at this
          have h2 := List.getElem?_eq_getElem hlt
          rw [h2] at this
          exact (Option.some.injEq _ _).mp this.symm] at this
      rw [hdrop, List.map_cons, List.map_cons, htrig]
      exact List.Sublist.cons₂ _ (ih (k + 1))

/-- C3 (amended): the score formula is as claimed; among the rules whose
score meets their own `minScore` (default 1) the highest-scoring one is kept
with ties resolved by rule list order; if no rule meets its own `minScore`
the event yields no major event; and at most one major event is produced per
timeline event (the trigger ids form a duplicate-free subsequence of the
event ids). -/
theorem c3_classification_amended (rules : List EventRule) (event : TimelineEvent)
    (hashFn : List SPart → Str) (timeline : List TimelineEvent) (options : ClassifyOptions) :
    (∀ rule, scoreRule rule event = claimScore rule event)
    ∧ (topRule event rules = none →
        ∀ rule ∈ rules, ¬ JNum.jle (minScoreOf rule) (scoreRule rule event))
    ∧ (∀ rule s, topRule event rules = some (rule, s) →
        rule ∈ rules ∧ s = scoreRule rule event ∧ JNum.jle (minScoreOf rule) s
        ∧ (∀ r ∈ rules, JNum.jle (minScoreOf r) (scoreRule r event) →
            JNum.jle (scoreRule r event) s)
        ∧ ∃ l₁ l₂, rules = l₁ ++ rule :: l₂
            ∧ ∀ r ∈ l₁, JNum.jle (minScoreOf r) (scoreRule r event) →
                ¬ JNum.jle s (scoreRule r event))
    ∧ ((timeline.map (·.id)).Nodup →
        ((classifyEvents hashFn timeline options).map (·.triggerEventId)).Nodup
        ∧ ∀ m ∈ classifyEvents hashFn timeline options,
            m.triggerEventId ∈ timeline.map (·.id)) := by
  refine ⟨fun rule => scoreRule_eq_claimScore rule event, ?_, ?_, ?_⟩
  · intro h rule hr hpass
    have hmem : (rule, scoreRule rule event) ∈
        ((rules.map fun r => (r, scoreRule r event)).filter fun x =>
          decide (JNum.jle (minScoreOf x.1) x.2)) :=
      List.mem_filter.mpr ⟨List.mem_map_of_mem _ hr, by simpa using hpass⟩
    unfold topRule at h
    rw [List.head?_eq_none_iff] at h
    have hlen := congrArg List.length h
    rw [List.length_insertionSort] at hlen
    simp only [List.length_nil] at hlen
    rw [List.length_eq_zero] at hlen
    rw [hlen] at hmem
    exact absurd hmem (List.not_mem_nil _)
  · intro rule s h
    unfold topRule at h
    rw [head_insertionSort] at h
    obtain ⟨c₁, c₂, hsplit, hmax, hbefore⟩ :=
      firstBest_spec scoreLE scoreLE_total (fun _ _ _ => scoreLE_trans) h
    have hwmem : (rule, s) ∈
        ((rules.map fun r => (r, scoreRule r event)).filter fun x =>
          decide (JNum.jle (minScoreOf x.1) x.2)) := by
      rw [hsplit]
      exact List.mem_append.mpr (Or.inr (List.mem_cons_self _ _))
    have hpair := List.mem_filter.mp hwmem
    obtain ⟨r₀, hr₀, heq⟩ := List.mem_map.mp hpair.1
    have hrule : r₀ = rule := congrArg Prod.fst heq
    have hscore : s = scoreRule rule event := by
      have := congrArg Prod.snd heq
      simp only at this
      rw [← this, hrule]
    refine ⟨hrule ▸ hr₀, hscore, by simpa using hpair.2, ?_, ?_⟩
    · intro r hr hrpass
      have : (r, scoreRule r event) ∈
          ((rules.map fun x => (x, scoreRule x event)).filter fun x =>
            decide (JNum.jle (minScoreOf x.1) x.2)) :=
        List.mem_filter.mpr ⟨List.mem_map_of_mem _ hr, by simpa using hrpass⟩
      exact hmax _ this
    · obtain ⟨l₁, x, l₂, hl, hfx, hfilter⟩ := filter_map_split hsplit
      have hx : x = rule := congrArg Prod.fst hfx
      refine ⟨l₁, l₂, by rw [hl, hx], ?_⟩
      intro r hr hrpass
      have hmem₁ : (r, scoreRule r event) ∈ c₁ := by
        rw [← hfilter]
        exact List.mem_filter.mpr ⟨List.mem_map_of_mem _ hr, by simpa using hrpass⟩
      exact hbefore _ hmem₁
  · intro hnd
    have hsub := classify_triggers_sublist hashFn timeline options
    refine ⟨hnd.sublist hsub, ?_⟩
    intro m hm
    exact hsub.subset (List.mem_map_of_mem _ hm)

/-- Event whose text contains the tokens `x` and `y` (fixture of the C3
counterexample). -/
def cxEvent : TimelineEvent :=
  { id := ("e1").data, client := ("codex").data, ts := 1, label := ("x y").data,
    detail := [], actor := .system, tags := [], sourcePath := ("/tmp/e1").data,
    mdCwd := none, mdProjectRoot := none, mdProject := none }

/-- High-weight rule whose own `minScore` its score does not reach. -/
def ruleA : EventRule :=
  { id := ("A").data, eventType := .GOAL, anyOf := [("x").data, ("y").data],
    allOf := none, not := none, minScore := some (JNum.ofInt 5),
    weight := some (JNum.ofInt 2) }

/-- Low-scoring rule passing its default `minScore`. -/
def ruleB : EventRule :=
  { id := ("B").data, eventType := .ASSIST, anyOf := [("x").data],
    allOf := none, not := none, minScore := none, weight := none }

/-- C3 counterexample: `ruleA` is the strictly highest-scoring rule on
`cxEvent` (score 4) and its score is below its own `minScore` 5, yet the
event still yields a major event — from `ruleB` — because the code filters
by `minScore` before taking the maximum.  This falsifies the claim's
"the highest-scoring rule is kept, and if that rule's score is below its own
minScore the event yields no MajorEvent". -/
theorem c3_counterexample :
    JNum.jle (scoreRule ruleB cxEvent) (scoreRule ruleA cxEvent)
    ∧ ¬ JNum.jle (scoreRule ruleA cxEvent) (scoreRule ruleB cxEvent)
    ∧ ¬ JNum.jle (minScoreOf ruleA) (scoreRule ruleA cxEvent)
    ∧ (classifyEvents (fun _ => []) [cxEvent]
        { rules := [ruleA, ruleB], followUpWindow := 3, followUpCount := 3,
          llm := none }).map (·.ruleId) = [("B").data] := by
  decide

/-- C3 witness: the amended theorem applied to the concrete rule pair of the
counterexample (`topRule` returns `ruleB` with score 1) and to a concrete
timeline with duplicate-free ids. -/
theorem c3_amended_witness :
    (ruleB ∈ [ruleA, ruleB] ∧ JNum.ofInt 1 = scoreRule ruleB cxEvent
      ∧ JNum.jle (minScoreOf ruleB) (JNum.ofInt 1)
      ∧ (∀ r ∈ [ruleA, ruleB], JNum.jle (minScoreOf r) (scoreRule r cxEvent) →
          JNum.jle (scoreRule r cxEvent) (JNum.ofInt 1))
      ∧ ∃ l₁ l₂, [ruleA, ruleB] = l₁ ++ ruleB :: l₂
          ∧ ∀ r ∈ l₁, JNum.jle (minScoreOf r) (scoreRule r cxEvent) →
              ¬ JNum.jle (JNum.ofInt 1) (scoreRule r cxEvent))
    ∧ (((classifyEvents (fun _ => []) [goalEvent, plainEvent]
          { rules := DEFAULT_RULES, followUpWindow := 5, followUpCount := 2,
            llm := none }).map (·.triggerEventId)).Nodup
        ∧ ∀ m ∈ classifyEvents (fun _ => []) [goalEvent, plainEvent]
            { rules := DEFAULT_RULES, followUpWindow := 5, followUpCount := 2, llm := none },
            m.triggerEventId ∈ [goalEvent, plainEvent].map (·.id)) :=
  ⟨(c3_classification_amended [ruleA, ruleB] cxEvent (fun _ => []) [] ⟨[], 0, 0, none⟩).2.2.1
      ruleB (JNum.ofInt 1) (by decide),
   (c3_classification_amended DEFAULT_RULES cxEvent (fun _ => []) [goalEvent, plainEvent]
      { rules := DEFAULT_RULES, followUpWindow := 5, followUpCount := 2, llm := none }).2.2.2
      (by decide)⟩

/-! ### Structure of `resolveConflicts` -/

/-- Winner of one collision group: head of its stable ranking. -/
def groupWinner (group : List EvidenceItem) : Option EvidenceItem :=
  (List.insertionSort rankLE group).head?

/-- Conflict record of one collision group (`none` for groups that produce
no record). -/
def groupConflict (hashFn : List SPart → Str) :
    List EvidenceItem → Option EvidenceConflict
  | [_] => none
  | group =>
    match List.insertionSort rankLE group with
    | [] => none
    | winner :: rest => some (mkConflict hashFn winner rest)

theorem rc_fold (hashFn : List SPart → Str) :
    ∀ (gs : List ((ℤ × Str) × List EvidenceItem))
      (acc : List EvidenceItem × List EvidenceConflict),
      gs.foldl (rcStep hashFn) acc =
        (acc.1 ++ gs.filterMap fun g => groupWinner g.2,
         acc.2 ++ gs.filterMap fun g => groupConflict hashFn g.2) := by
  intro gs
  induction gs with
  | nil => intro acc; simp
  | cons g gs ih =>
    intro acc
    rw [List.foldl_cons, ih]
    rcases g with ⟨k, group⟩
    match group with
    | [] =>
      simp [rcStep, groupWinner, groupConflict, List.insertionSort]
    | [x] =>
      simp [rcStep, groupWinner, groupConflict, List.insertionSort, List.orderedInsert]
    | x :: y :: t =>
      cases hs : List.insertionSort rankLE (x :: y :: t) with
      | nil =>
        have hlen := congrArg List.length hs
        rw [List.length_insertionSort] at hlen
        simp at hlen
      | cons winner rest =>
        have hw : groupWinner (x :: y :: t) = some winner := by
          unfold groupWinner
          rw [hs]
          rfl
        have hcf : groupConflict hashFn (x :: y :: t) = some (mkConflict hashFn winner rest) := by
          unfold groupConflict
          dsimp only
          rw [hs]
        simp only [rcStep, hs, List.filterMap_cons, hw, hcf]
        simp [List.append_assoc]

/-- Structural characterization of `resolveConflicts`: evidence is the
timestamp-sorted list of group winners, conflicts the per-group records in
group order. -/
theorem resolveConflicts_eq (hashFn : List SPart → Str) (items : List EvidenceItem) :
    resolveConflicts hashFn items =
      { evidence := List.insertionSort tsLE
          ((groupByKeyF collisionKey items).filterMap fun g => groupWinner g.2)
        conflicts := (groupByKeyF collisionKey items).filterMap fun g =>
          groupConflict hashFn g.2 } := by
  simp only [resolveConflicts]
  rw [rc_fold]
  simp

/-- A group of at least two items produces exactly its conflict record. -/
theorem groupConflict_of_multi (hashFn : List SPart → Str) {group : List EvidenceItem}
    (h : 1 < group.length) :
    ∃ winner rest, List.insertionSort rankLE group = winner :: rest
      ∧ groupConflict hashFn group = some (mkConflict hashFn winner rest) := by
  match group, h with
  | x :: y :: t, _ =>
    cases hs : List.insertionSort rankLE (x :: y :: t) with
    | nil =>
      have hlen := congrArg List.length hs
      rw [List.length_insertionSort] at hlen
      simp at hlen
    | cons winner rest =>
      refine ⟨winner, rest, rfl, ?_⟩
      unfold groupConflict
      dsimp only
      rw [hs]

/-- Groups of at most one item produce no conflict record. -/
theorem groupConflict_of_small (hashFn : List SPart → Str) {group : List EvidenceItem}
    (h : group.length ≤ 1) : groupConflict hashFn group = none := by
  cases group with
  | nil => rfl
  | cons x xs =>
    cases xs with
    | nil => rfl
    | cons y ys => simp at h

theorem tsLE_total (a b : EvidenceItem) : tsLE a b ∨ tsLE b a := le_total _ _

theorem tsLE_trans {a b c : EvidenceItem} (h₁ : tsLE a b) (h₂ : tsLE b c) : tsLE a c :=
  le_trans h₁ h₂

/-- Membership in the resolved evidence is membership among group winners. -/
theorem mem_rc_evidence (hashFn : List SPart → Str) (items : List EvidenceItem)
    (x : EvidenceItem) :
    (x ∈ (resolveConflicts hashFn items).evidence
      ↔ ∃ g ∈ groupByKeyF collisionKey items, groupWinner g.2 = some x) := by
  rw [resolveConflicts_eq]
  simp only [List.mem_insertionSort, List.mem_filterMap]

/-- A group winner is a member of its group. -/
theorem groupWinner_mem {group : List EvidenceItem} {w : EvidenceItem}
    (h : groupWinner group = some w) : w ∈ group := by
  unfold groupWinner at h
  have hmem : w ∈ List.insertionSort rankLE group := by
    cases hs : List.insertionSort rankLE group with
    | nil =>
      rw [hs] at h
      exact absurd h (by simp)
    | cons a t =>
      rw [hs] at h
      simp only [List.head?, Option.some.injEq] at h
      exact h ▸ List.mem_cons_self a t
  exact (List.mem_insertionSort rankLE).mp hmem

/-- The winner ordering as claim C4 words it: priority descending, then
confidence descending, then timestamp descending (weakly). -/
def winnerOutranks (w x : EvidenceItem) : Prop :=
  x.priority < w.priority
  ∨ (x.priority = w.priority
     ∧ ((JNum.jle x.confidence w.confidence ∧ ¬ JNum.jle w.confidence x.confidence)
        ∨ (JNum.jle x.confidence w.confidence ∧ JNum.jle w.confidence x.confidence
           ∧ x.ts ≤ w.ts)))

instance : DecidableRel winnerOutranks := fun a b => by unfold winnerOutranks; infer_instance

/-- The comparator of the source ranks `w` before `x` exactly when `w`
outranks `x` in the claim's ordering. -/
theorem winnerOutranks_iff {w x : EvidenceItem} : rankLE w x ↔ winnerOutranks w x :=
  rankLE_iff

theorem length_filterMap_eq_length_filter (f : α → Option β) (l : List α) :
    (l.filterMap f).length = (l.filter fun x => (f x).isSome).length := by
  induction l with
  | nil => rfl
  | cons a l ih =>
    cases hf : f a <;> simp [List.filterMap_cons, hf, List.filter_cons, ih]

/-- C4 (amended): `resolveConflicts` groups items by the collision key
(1-minute bucket, `projectId ?? "-"`, lowercased summary); every multi-item
group emits exactly one conflict whose kept winner outranks all members by
priority desc, then confidence desc, then timestamp desc, with remaining
full ties broken toward the earliest input position (the members strictly
before the winner in input order are all strictly outranked); the conflict
lists all other members' ids; and singleton groups pass through with no
conflict record (the conflict count equals the number of multi-item
groups). -/
theorem c4_resolveConflicts_amended (hashFn : List SPart → Str) (items : List EvidenceItem) :
    (∀ g ∈ groupByKeyF collisionKey items, ∀ x ∈ g.2, x ∈ items ∧ collisionKey x = g.1)
    ∧ (∀ x ∈ items, ∃ g ∈ groupByKeyF collisionKey items, x ∈ g.2)
    ∧ (resolveConflicts hashFn items).conflicts.length
        = ((groupByKeyF collisionKey items).filter fun g => decide (1 < g.2.length)).length
    ∧ (∀ g ∈ groupByKeyF collisionKey items, ∀ x, g.2 = [x] →
        x ∈ (resolveConflicts hashFn items).evidence)
    ∧ (∀ g ∈ groupByKeyF collisionKey items, 1 < g.2.length →
        ∃ c ∈ (resolveConflicts hashFn items).conflicts, ∃ w g₁ g₂,
          g.2 = g₁ ++ w :: g₂
          ∧ w ∈ (resolveConflicts hashFn items).evidence
          ∧ c.winnerEvidenceId = w.id
          ∧ (∀ x ∈ g.2, winnerOutranks w x)
          ∧ (∀ x ∈ g₁, ¬ winnerOutranks x w)
          ∧ c.discardedEvidenceIds.Perm ((g₁ ++ g₂).map (·.id))) := by
  obtain ⟨hnd, hfilter, hcover, hne⟩ := groupByKeyF_inv collisionKey items
  refine ⟨?_, ?_, ?_, ?_, ?_⟩
  · intro g hg x hx
    rw [hfilter g hg] at hx
    exact ⟨List.mem_of_mem_filter hx, of_decide_eq_true (List.mem_filter.mp hx).2⟩
  · intro x hx
    obtain ⟨g, hg, hkey⟩ := List.mem_map.mp (hcover x hx)
    refine ⟨g, hg, ?_⟩
    rw [hfilter g hg]
    exact List.mem_filter.mpr ⟨hx, decide_eq_true hkey.symm⟩
  · rw [resolveConflicts_eq]
    dsimp only
    rw [length_filterMap_eq_length_filter]
    congr 1
    apply List.filter_congr
    intro g hg
    by_cases hlen : 1 < g.2.length
    · obtain ⟨winner, rest, hs, hgc⟩ := groupConflict_of_multi hashFn hlen
      rw [hgc]
      simp [hlen]
    · rw [groupConflict_of_small hashFn (by omega)]
      simp [hlen]
  · intro g hg x hgx
    refine (mem_rc_evidence hashFn items x).mpr ⟨g, hg, ?_⟩
    rw [hgx]
    rfl
  · intro g hg hlen
    obtain ⟨winner, rest, hs, hgc⟩ := groupConflict_of_multi hashFn hlen
    have hwin : groupWinner g.2 = some winner := by
      unfold groupWinner
      rw [hs]
      rfl
    have hfb : firstBest rankLE g.2 = some winner := by
      rw [← head_insertionSort, hs]
      rfl
    obtain ⟨g₁, g₂, hsplit, hmax, hbefore⟩ :=
      firstBest_spec rankLE rankLE_total (fun _ _ _ => rankLE_trans) hfb
    refine ⟨mkConflict hashFn winner rest, ?_, winner, g₁, g₂, hsplit, ?_, rfl, ?_, ?_, ?_⟩
    · rw [resolveConflicts_eq]
      exact List.mem_filterMap.mpr ⟨g, hg, hgc⟩
    · exact (mem_rc_evidence hashFn items winner).mpr ⟨g, hg, hwin⟩
    · intro x hx
      exact winnerOutranks_iff.mp (hmax x hx)
    · intro x hx hwx
      exact hbefore x hx (winnerOutranks_iff.mpr hwx)
    · have hperm : List.Perm (List.insertionSort rankLE g.2) g.2 :=
        List.perm_insertionSort rankLE g.2
      rw [hs, hsplit] at hperm
      have hmid : List.Perm (g₁ ++ winner :: g₂) (winner :: (g₁ ++ g₂)) := List.perm_middle
      have hrest : List.Perm rest (g₁ ++ g₂) := (hperm.trans hmid).cons_inv
      exact hrest.map (·.id)

/-- First of two fully tied evidence items (same minute bucket, project,
summary, priority, confidence and timestamp; distinct ids). -/
def tieA : EvidenceItem :=
  { id := ("a").data, client := ("codex").data, projectId := none, ts := 0,
    type := .user_text, sourcePath := ("/tmp/s").data, summary := ("s").data,
    detail := ("da").data, confidence := JNum.frac 72 100, priority := 3, eventId := none }

/-- Second fully tied evidence item. -/
def tieB : EvidenceItem :=
  { tieA with id := ("b").data, detail := ("db").data }

/-- C4 counterexample: two items tied on all three ordering keys (priority,
confidence, timestamp) in the same collision group.  The kept winner is
whichever item comes first in the input, so the selection is not independent
of the input order as the claim states. -/
theorem c4_counterexample :
    tieA.priority = tieB.priority ∧ tieA.confidence = tieB.confidence ∧ tieA.ts = tieB.ts
    ∧ collisionKey tieA = collisionKey tieB
    ∧ ((resolveConflicts (fun _ => []) [tieA, tieB]).conflicts.map (·.winnerEvidenceId)
        = [("a").data])
    ∧ ((resolveConflicts (fun _ => []) [tieB, tieA]).conflicts.map (·.winnerEvidenceId)
        = [("b").data]) := by
  decide

/-- C4 witness: the amended theorem applied to the concrete tied pair; its
single multi-item group yields exactly one conflict whose winner is the
earlier input item. -/
theorem c4_witness :
    ∃ c ∈ (resolveConflicts (fun _ => []) [tieA, tieB]).conflicts, ∃ w g₁ g₂,
      [tieA, tieB] = g₁ ++ w :: g₂
      ∧ w ∈ (resolveConflicts (fun _ => []) [tieA, tieB]).evidence
      ∧ c.winnerEvidenceId = w.id
      ∧ (∀ x ∈ [tieA, tieB], winnerOutranks w x)
      ∧ (∀ x ∈ g₁, ¬ winnerOutranks x w)
      ∧ c.discardedEvidenceIds.Perm ((g₁ ++ g₂).map (·.id)) :=
  (c4_resolveConflicts_amended (fun _ => []) [tieA, tieB]).2.2.2.2
    ((0, ("-|s").data), [tieA, tieB]) (by decide) (by decide)

/-! ### Partition structure of `resolveConflicts` (C10 support) -/

theorem sum_map_filterMap (gc : α → Option β) (f : β → ℕ) (l : List α) :
    ((l.filterMap gc).map f).sum = (l.map fun a => ((gc a).map f).getD 0).sum := by
  induction l with
  | nil => rfl
  | cons a l ih =>
    cases hg : gc a <;> simp [List.filterMap_cons, hg, ih]

theorem sum_map_single {l : List α} (f : α → ℕ) (hnd : l.Nodup) {a : α} (ha : a ∈ l)
    (h0 : ∀ b ∈ l, b ≠ a → f b = 0) : (l.map f).sum = f a := by
  induction l with
  | nil => cases ha
  | cons b l ih =>
    rcases List.mem_cons.mp ha with rfl | ha'
    · simp only [List.map_cons, List.sum_cons]
      have hz : (l.map f).sum = 0 := by
        apply List.sum_eq_zero
        intro n hn
        obtain ⟨c, hc, rfl⟩ := List.mem_map.mp hn
        exact h0 c (List.mem_cons_of_mem _ hc)
          (fun he => (List.nodup_cons.mp hnd).1 (he ▸ hc))
      omega
    · have hb : f b = 0 :=
        h0 b (List.mem_cons_self b l) (by rintro rfl; exact (List.nodup_cons.mp hnd).1 ha')
      have hrec := ih (List.nodup_cons.mp hnd).2 ha'
        (fun c hc => h0 c (List.mem_cons_of_mem _ hc))
      simp only [List.map_cons, List.sum_cons, hb, hrec]
      omega

/-- The key of a group winner is the group's key. -/
theorem groupWinner_key {items : List EvidenceItem} {g : (ℤ × Str) × List EvidenceItem}
    (hg : g ∈ groupByKeyF collisionKey items) {w : EvidenceItem}
    (hw : groupWinner g.2 = some w) : collisionKey w = g.1 := by
  obtain ⟨_, hfilter, _, _⟩ := groupByKeyF_inv collisionKey items
  have hmem := groupWinner_mem hw
  rw [hfilter g hg] at hmem
  exact of_decide_eq_true (List.mem_filter.mp hmem).2

theorem winners_key_sublist (hashFn : List SPart → Str)
    (gs : List ((ℤ × Str) × List EvidenceItem))
    (hkey : ∀ g ∈ gs, ∀ w, groupWinner g.2 = some w → collisionKey w = g.1) :
    List.Sublist ((gs.filterMap fun g => groupWinner g.2).map collisionKey)
      (gs.map Prod.fst) := by
  induction gs with
  | nil => exact List.Sublist.refl _
  | cons g gs ih =>
    have ih' := ih (fun g' hg' => hkey g' (List.mem_cons_of_mem _ hg'))
    cases hw : groupWinner g.2 with
    | none =>
      simp only [List.filterMap_cons, hw, List.map_cons]
      exact ih'.cons _
    | some w =>
      simp only [List.filterMap_cons, hw, List.map_cons]
      rw [hkey g (List.mem_cons_self g gs) w hw]
      exact ih'.cons₂ _

/-- The resolved evidence list never holds duplicates: winners of distinct
groups carry distinct collision keys. -/
theorem rc_evidence_nodup (hashFn : List SPart → Str) (items : List EvidenceItem) :
    (resolveConflicts hashFn items).evidence.Nodup := by
  obtain ⟨hnd, _, _, _⟩ := groupByKeyF_inv collisionKey items
  rw [resolveConflicts_eq]
  dsimp only
  apply (List.perm_insertionSort tsLE _).nodup_iff.mpr
  have hsub := winners_key_sublist hashFn (groupByKeyF collisionKey items)
    (fun g hg w hw => groupWinner_key hg hw)
  exact (hnd.sublist hsub).of_map

/-- Two groups sharing a member coincide. -/
theorem group_unique {items : List EvidenceItem} {g g' : (ℤ × Str) × List EvidenceItem}
    (hg : g ∈ groupByKeyF collisionKey items) (hg' : g' ∈ groupByKeyF collisionKey items)
    {x : EvidenceItem} (hx : x ∈ g.2) (hx' : x ∈ g'.2) : g = g' := by
  obtain ⟨hnd, hfilter, _, _⟩ := groupByKeyF_inv collisionKey items
  have h1 : collisionKey x = g.1 := by
    rw [hfilter g hg] at hx
    exact of_decide_eq_true (List.mem_filter.mp hx).2
  have h2 : collisionKey x = g'.1 := by
    rw [hfilter g' hg'] at hx'
    exact of_decide_eq_true (List.mem_filter.mp hx').2
  exact nodup_map_eq_of_eq hnd hg hg' (h1.symm.trans h2)

/-- Every input item lies in some collision group. -/
theorem mem_group_of_mem {items : List EvidenceItem} {x : EvidenceItem} (hx : x ∈ items) :
    ∃ g ∈ groupByKeyF collisionKey items, x ∈ g.2 := by
  obtain ⟨_, hfilter, hcover, _⟩ := groupByKeyF_inv collisionKey items
  obtain ⟨g, hg, hkey⟩ := List.mem_map.mp (hcover x hx)
  exact ⟨g, hg, by rw [hfilter g hg]; exact List.mem_filter.mpr ⟨hx, decide_eq_true hkey.symm⟩⟩

/-- Group members are input items. -/
theorem mem_items_of_mem_group {items : List EvidenceItem}
    {g : (ℤ × Str) × List EvidenceItem} (hg : g ∈ groupByKeyF collisionKey items)
    {x : EvidenceItem} (hx : x ∈ g.2) : x ∈ items := by
  obtain ⟨_, hfilter, _, _⟩ := groupByKeyF_inv collisionKey items
  rw [hfilter g hg] at hx
  exact List.mem_of_mem_filter hx

/-- Groups of a duplicate-free input are duplicate-free. -/
theorem group_nodup {items : List EvidenceItem} (hnd : items.Nodup)
    {g : (ℤ × Str) × List EvidenceItem} (hg : g ∈ groupByKeyF collisionKey items) :
    g.2.Nodup := by
  obtain ⟨_, hfilter, _, _⟩ := groupByKeyF_inv collisionKey items
  rw [hfilter g hg]
  exact hnd.filter _

/-- A nonempty group has a winner heading its stable ranking. -/
theorem sort_cons_of_mem {group : List EvidenceItem} {x : EvidenceItem} (hx : x ∈ group) :
    ∃ w rest, List.insertionSort rankLE group = w :: rest ∧ groupWinner group = some w := by
  cases hs : List.insertionSort rankLE group with
  | nil =>
    have hlen := congrArg List.length hs
    rw [List.length_insertionSort] at hlen
    have hgnil : group = [] := List.length_eq_zero.mp (by simpa using hlen)
    rw [hgnil] at hx
    cases hx
  | cons a t =>
    exact ⟨a, t, rfl, by unfold groupWinner; rw [hs]; rfl⟩

theorem count_eq_one_of_nodup_mem [BEq α] [LawfulBEq α] {l : List α} (hnd : l.Nodup)
    {a : α} (ha : a ∈ l) : l.count a = 1 := by
  induction l with
  | nil => cases ha
  | cons b l ih =>
    rcases List.mem_cons.mp ha with rfl | ha'
    · rw [List.count_cons_self]
      have hz : l.count a = 0 := List.count_eq_zero.mpr (List.nodup_cons.mp hnd).1
      omega
    · have hne : a ≠ b := by
        rintro rfl
        exact (List.nodup_cons.mp hnd).1 ha'
      rw [List.count_cons_of_ne hne]
      exact ih (List.nodup_cons.mp hnd).2 ha'

/-- C10: `resolveConflicts` partitions its input (assuming the input ids are
duplicate-free, as produced upstream): the returned evidence is
duplicate-free and consists only of unmodified input items; every input
item either appears in the evidence and in no conflict's discarded list, or
is absent from the evidence and its id occurs exactly once across all
conflicts' `discardedEvidenceIds`; and every conflict's `winnerEvidenceId`
is the id of a member of its own collision group that is itself returned in
the evidence array, with every discarded id also the id of a member of that
group. -/
theorem c10_resolveConflicts_partition (hashFn : List SPart → Str) (items : List EvidenceItem)
    (hid : (items.map (·.id)).Nodup) :
    (resolveConflicts hashFn items).evidence.Nodup
    ∧ (∀ x ∈ (resolveConflicts hashFn items).evidence, x ∈ items)
    ∧ (∀ x ∈ items,
        (x ∈ (resolveConflicts hashFn items).evidence
          ∧ ((resolveConflicts hashFn items).conflicts.map
              fun c => c.discardedEvidenceIds.count x.id).sum = 0)
        ∨ (x ∉ (resolveConflicts hashFn items).evidence
          ∧ ((resolveConflicts hashFn items).conflicts.map
              fun c => c.discardedEvidenceIds.count x.id).sum = 1))
    ∧ (∀ c ∈ (resolveConflicts hashFn items).conflicts,
        ∃ g ∈ groupByKeyF collisionKey items, ∃ w ∈ g.2,
          c.winnerEvidenceId = w.id
          ∧ w ∈ (resolveConflicts hashFn items).evidence
          ∧ ∀ d ∈ c.discardedEvidenceIds, ∃ y ∈ g.2, y.id = d) := by
  have hitems_nd : items.Nodup := hid.of_map
  have hidinj : ∀ a ∈ items, ∀ b ∈ items, a.id = b.id → a = b :=
    fun a ha b hb => nodup_map_eq_of_eq hid ha hb
  have hconf : (resolveConflicts hashFn items).conflicts
      = (groupByKeyF collisionKey items).filterMap fun g => groupConflict hashFn g.2 := by
    rw [resolveConflicts_eq]
  refine ⟨rc_evidence_nodup hashFn items, ?_, ?_, ?_⟩
  · intro x hx
    obtain ⟨g, hg, hw⟩ := (mem_rc_evidence hashFn items x).mp hx
    exact mem_items_of_mem_group hg (groupWinner_mem hw)
  · intro x hx
    obtain ⟨g, hg, hxg⟩ := mem_group_of_mem hx
    obtain ⟨w, rest, hsort, hw⟩ := sort_cons_of_mem hxg
    have hsortnd : (w :: rest).Nodup := by
      have hpnd := (List.perm_insertionSort rankLE g.2).nodup_iff.mpr (group_nodup hitems_nd hg)
      rwa [hsort] at hpnd
    have hsp : List.Perm (w :: rest) g.2 := by
      have hp := List.perm_insertionSort rankLE g.2
      rwa [hsort] at hp
    have hother : ∀ g' ∈ groupByKeyF collisionKey items, g' ≠ g →
        ∀ c', groupConflict hashFn g'.2 = some c' →
          c'.discardedEvidenceIds.count x.id = 0 := by
      intro g' hg' hne' c' hc'
      rw [List.count_eq_zero]
      intro hmem
      by_cases hlen' : 1 < g'.2.length
      · obtain ⟨w', rest', hs', hgc'⟩ := groupConflict_of_multi hashFn hlen'
        rw [hgc'] at hc'
        injection hc' with hc'
        subst hc'
        simp only [mkConflict] at hmem
        obtain ⟨y, hy, hyid⟩ := List.mem_map.mp hmem
        have hyg' : y ∈ g'.2 := by
          have hys : y ∈ List.insertionSort rankLE g'.2 := by
            rw [hs']
            exact List.mem_cons_of_mem _ hy
          exact (List.mem_insertionSort rankLE).mp hys
        have hyx : y = x := hidinj y (mem_items_of_mem_group hg' hyg') x hx hyid
        subst hyx
        exact hne' (group_unique hg' hg hyg' hxg)
      · rw [groupConflict_of_small hashFn (by omega)] at hc'
        cases hc'
    by_cases hxw : x = w
    · left
      refine ⟨(mem_rc_evidence hashFn items x).mpr ⟨g, hg, by rw [hxw]; exact hw⟩, ?_⟩
      apply List.sum_eq_zero
      intro n hn
      obtain ⟨c, hc, rfl⟩ := List.mem_map.mp hn
      rw [hconf] at hc
      obtain ⟨g', hg', hc'⟩ := List.mem_filterMap.mp hc
      by_cases hgg : g' = g
      · subst hgg
        by_cases hlen' : 1 < g'.2.length
        · obtain ⟨w', rest', hs', hgc'⟩ := groupConflict_of_multi hashFn hlen'
          rw [hgc'] at hc'
          injection hc' with hc'
          subst hc'
          rw [hs'] at hsort
          injection hsort with he1 he2
          subst he1
          subst he2
          simp only [mkConflict]
          rw [List.count_eq_zero]
          intro hmem
          obtain ⟨y, hy, hyid⟩ := List.mem_map.mp hmem
          have hyg : y ∈ g'.2 := hsp.subset (List.mem_cons_of_mem _ hy)
          have hyx : y = x := hidinj y (mem_items_of_mem_group hg' hyg) x hx hyid
          subst hyx
          rw [hxw] at hy
          exact (List.nodup_cons.mp hsortnd).1 hy
        · rw [groupConflict_of_small hashFn (by omega)] at hc'
          cases hc'
      · exact hother g' hg' hgg c hc'
    · right
      constructor
      · intro hmem
        obtain ⟨g'', hg'', hw''⟩ := (mem_rc_evidence hashFn items x).mp hmem
        have hxg'' : x ∈ g''.2 := groupWinner_mem hw''
        have hgeq : g'' = g := group_unique hg'' hg hxg'' hxg
        rw [hgeq] at hw''
        have hsome : some x = some w := hw''.symm.trans hw
        injection hsome with hsome
        exact hxw hsome
      · have hxcons : x ∈ w :: rest := hsp.mem_iff.mpr hxg
        have hxrest : x ∈ rest := by
          rcases List.mem_cons.mp hxcons with h | h
          · exact absurd h hxw
          · exact h
        have hlen : 1 < g.2.length := by
          have hleq := hsp.length_eq
          have hrpos : 0 < rest.length := List.length_pos_of_mem hxrest
          simp only [List.length_cons] at hleq
          omega
        obtain ⟨w', rest', hs', hgc⟩ := groupConflict_of_multi hashFn hlen
        rw [hs'] at hsort
        injection hsort with he1 he2
        subst he1
        subst he2
        have hgsnd : (groupByKeyF collisionKey items).Nodup := by
          obtain ⟨hknd, _, _, _⟩ := groupByKeyF_inv collisionKey items
          exact hknd.of_map
        have h0big : ∀ g' ∈ groupByKeyF collisionKey items, g' ≠ g →
            (fun g'' => (((groupConflict hashFn g''.2).map
              fun c => c.discardedEvidenceIds.count x.id).getD 0)) g' = 0 := by
          intro g' hg' hne'
          cases hc' : groupConflict hashFn g'.2 with
          | none => simp [hc']
          | some c' =>
            simp only [hc', Option.map_some', Option.getD_some]
            exact hother g' hg' hne' c' hc'
        rw [hconf, sum_map_filterMap,
          sum_map_single (fun g'' => (((groupConflict hashFn g''.2).map
            fun c => c.discardedEvidenceIds.count x.id).getD 0)) hgsnd hg h0big]
        simp only [hgc, Option.map_some', Option.getD_some, mkConflict]
        apply count_eq_one_of_nodup_mem
        · apply List.Nodup.map_on ?inj (List.nodup_cons.mp hsortnd).2
          case inj =>
            intro y hy z hz hyz
            exact hidinj y (mem_items_of_mem_group hg (hsp.subset (List.mem_cons_of_mem _ hy)))
              z (mem_items_of_mem_group hg (hsp.subset (List.mem_cons_of_mem _ hz))) hyz
        · exact List.mem_map_of_mem _ hxrest
  · intro c hc
    rw [hconf] at hc
    obtain ⟨g', hg', hc'⟩ := List.mem_filterMap.mp hc
    by_cases hlen' : 1 < g'.2.length
    · obtain ⟨w', rest', hs', hgc'⟩ := groupConflict_of_multi hashFn hlen'
      rw [hgc'] at hc'
      injection hc' with hc'
      subst hc'
      have hw' : groupWinner g'.2 = some w' := by
        unfold groupWinner
        rw [hs']
        rfl
      have hsp' : List.Perm (w' :: rest') g'.2 := by
        have hp := List.perm_insertionSort rankLE g'.2
        rwa [hs'] at hp
      refine ⟨g', hg', w', groupWinner_mem hw', rfl, ?_, ?_⟩
      · exact (mem_rc_evidence hashFn items w').mpr ⟨g', hg', hw'⟩
      · intro d hd
        simp only [mkConflict] at hd
        obtain ⟨y, hy, rfl⟩ := List.mem_map.mp hd
        exact ⟨y, hsp'.subset (List.mem_cons_of_mem _ hy), rfl⟩
    · rw [groupConflict_of_small hashFn (by omega)] at hc'
      cases hc'

/-- Higher-priority member of a two-item collision group. -/
def wA : EvidenceItem :=
  { id := ("wa").data, client := ("codex").data, projectId := none, ts := 0,
    type := .file_change, sourcePath := ("/tmp/w").data, summary := ("w").data,
    detail := ("d1").data, confidence := JNum.frac 9 10, priority := 4, eventId := none }

/-- Lower-priority member of the same collision group. -/
def wB : EvidenceItem :=
  { wA with id := ("wb").data, type := .user_text, priority := 1, detail := ("d2").data }

/-- C10 witness: the partition theorem applied to a concrete two-item group
with duplicate-free ids. -/
theorem c10_witness :
    ([wA, wB].map (·.id)).Nodup
    ∧ ((resolveConflicts (fun _ => []) [wA, wB]).evidence.Nodup
      ∧ (∀ x ∈ (resolveConflicts (fun _ => []) [wA, wB]).evidence, x ∈ [wA, wB])
      ∧ (∀ x ∈ [wA, wB],
          (x ∈ (resolveConflicts (fun _ => []) [wA, wB]).evidence
            ∧ ((resolveConflicts (fun _ => []) [wA, wB]).conflicts.map
                fun c => c.discardedEvidenceIds.count x.id).sum = 0)
          ∨ (x ∉ (resolveConflicts (fun _ => []) [wA, wB]).evidence
            ∧ ((resolveConflicts (fun _ => []) [wA, wB]).conflicts.map
                fun c => c.discardedEvidenceIds.count x.id).sum = 1))
      ∧ (∀ c ∈ (resolveConflicts (fun _ => []) [wA, wB]).conflicts,
          ∃ g ∈ groupByKeyF collisionKey [wA, wB], ∃ w ∈ g.2,
            c.winnerEvidenceId = w.id
            ∧ w ∈ (resolveConflicts (fun _ => []) [wA, wB]).evidence
            ∧ ∀ d ∈ c.discardedEvidenceIds, ∃ y ∈ g.2, y.id = d)) :=
  ⟨by decide, c10_resolveConflicts_partition (fun _ => []) [wA, wB] (by decide)⟩

/-- C9: on an empty timeline and empty evidence `analyzeInsights` returns an
insights record whose four arrays (instructions, repetition, featureDeltas,
timelineNarrative) are all empty, for every query, scope and major-event
list; as a total Lean function it signals no error. -/
theorem c9_analyzeInsights_empty (hashFn : List SPart → Str) (kit : TextKit)
    (queryRaw : Str) (scope : ProjectScope) (majors : List MajorEvent) :
    analyzeInsights hashFn kit
      { queryRaw := queryRaw, scope := scope, timeline := [], evidence := [],
        majorEvents := majors }
      = { instructions := [], repetition := [], featureDeltas := [],
          timelineNarrative := [] } := by
  rfl

/-! ### Correctness of the binary searches (C7 support) -/

theorem countP_eq_of_index_cut (l : List ℤ) (p : ℤ → Bool) :
    ∀ r : ℕ, r ≤ l.length →
      (∀ i, i < r → p (l.getD i 0) = true) →
      (∀ i, r ≤ i → i < l.length → p (l.getD i 0) = false) →
      l.countP p = r := by
  induction l with
  | nil =>
    intro r hr _ _
    have hr0 : r = 0 := Nat.le_zero.mp (by simpa using hr)
    simp [hr0]
  | cons a l ih =>
    intro r hr h1 h2
    cases r with
    | zero =>
      have ha : p a = false := by simpa using h2 0 (Nat.zero_le 0) (by simp)
      have hl0 : l.countP p = 0 := by
        apply ih 0 (Nat.zero_le _)
        · intro i hi
          exact absurd hi (Nat.not_lt_zero i)
        · intro i _ hi
          simpa using h2 (i + 1) (Nat.zero_le _) (by simp; omega)
      rw [List.countP_cons, ha, hl0]
      simp
    | succ r =>
      have ha : p a = true := by simpa using h1 0 (Nat.succ_pos r)
      have hl : l.countP p = r := by
        apply ih r (by simp at hr; omega)
        · intro i hi
          simpa using h1 (i + 1) (Nat.succ_lt_succ hi)
        · intro i hir hil
          simpa using h2 (i + 1) (Nat.succ_le_succ hir) (by simp; omega)
      rw [List.countP_cons, ha, hl]
      simp

theorem bsGo_spec (l : List ℤ) (p : ℤ → Bool)
    (hdc : ∀ i j, i ≤ j → j < l.length → p (l.getD j 0) = true → p (l.getD i 0) = true) :
    ∀ n left right, right - left ≤ n → left ≤ right → right ≤ l.length →
      (∀ i, i < left → p (l.getD i 0) = true) →
      (∀ i, right ≤ i → i < l.length → p (l.getD i 0) = false) →
      (left ≤ bsGo l p left right ∧ bsGo l p left right ≤ right
        ∧ (∀ i, i < bsGo l p left right → p (l.getD i 0) = true)
        ∧ (∀ i, bsGo l p left right ≤ i → i < l.length → p (l.getD i 0) = false)) := by
  intro n
  induction n with
  | zero =>
    intro left right hn hlr hrl h1 h2
    have heq : ¬ left < right := by omega
    rw [bsGo, dif_neg heq]
    exact ⟨le_refl _, hlr, fun i hi => h1 i hi, fun i hi hil => h2 i (by omega) hil⟩
  | succ n ih =>
    intro left right hn hlr hrl h1 h2
    by_cases h : left < right
    · rw [bsGo, dif_pos h]
      dsimp only
      by_cases hp : p (l.getD ((left + right) / 2) 0) = true
      · rw [if_pos hp]
        have hrec := ih ((left + right) / 2 + 1) right (by omega) (by omega) hrl
          (fun i hi => hdc i ((left + right) / 2) (by omega) (by omega) hp) h2
        exact ⟨by omega, hrec.2.1, hrec.2.2.1, hrec.2.2.2⟩
      · rw [if_neg hp]
        have h2' : ∀ i, (left + right) / 2 ≤ i → i < l.length → p (l.getD i 0) = false := by
          intro i hmi hil
          by_cases hri : right ≤ i
          · exact h2 i hri hil
          · cases hq : p (l.getD i 0) with
            | false => rfl
            | true =>
              exact absurd (hdc ((left + right) / 2) i hmi hil hq) hp
        have hrec := ih left ((left + right) / 2) (by omega) (by omega) (by omega) h1 h2'
        exact ⟨hrec.1, by omega, hrec.2.2.1, hrec.2.2.2⟩
    · rw [bsGo, dif_neg h]
      have heq : left = right := by omega
      exact ⟨le_refl _, hlr, fun i hi => h1 i hi, fun i hi hil => h2 i (by omega) hil⟩

theorem bsGo_count (l : List ℤ) (p : ℤ → Bool)
    (hdc : ∀ i j, i ≤ j → j < l.length → p (l.getD j 0) = true → p (l.getD i 0) = true) :
    bsGo l p 0 l.length = l.countP p := by
  obtain ⟨g1, g2, g3, g4⟩ := bsGo_spec l p hdc l.length 0 l.length (by omega) (Nat.zero_le _)
    (le_refl _) (fun i hi => absurd hi (Nat.not_lt_zero i)) (fun i hge hlt => absurd hlt (by omega))
  exact (countP_eq_of_index_cut l p _ g2 g3 g4).symm

theorem sorted_getD_mono {l : List ℤ} (hs : List.Sorted (· ≤ ·) l) {i j : ℕ}
    (hij : i ≤ j) (hj : j < l.length) : l.getD i 0 ≤ l.getD j 0 := by
  rcases Nat.eq_or_lt_of_le hij with rfl | hlt
  · exact le_refl _
  · rw [List.getD_eq_getElem l 0 (by omega), List.getD_eq_getElem l 0 hj]
    exact List.pairwise_iff_getElem.mp hs i j (by omega) hj hlt

theorem binarySearchLeft_count (l : List ℤ) (hs : List.Sorted (· ≤ ·) l) (target : ℤ) :
    binarySearchLeft l target = l.countP (fun x => decide (x < target)) := by
  unfold binarySearchLeft
  apply bsGo_count
  intro i j hij hj hpj
  simp only [decide_eq_true_eq] at hpj ⊢
  exact lt_of_le_of_lt (sorted_getD_mono hs hij hj) hpj

theorem binarySearchRight_count (l : List ℤ) (hs : List.Sorted (· ≤ ·) l) (target : ℤ) :
    binarySearchRight l target = l.countP (fun x => decide (x ≤ target)) := by
  unfold binarySearchRight
  apply bsGo_count
  intro i j hij hj hpj
  simp only [decide_eq_true_eq] at hpj ⊢
  exact le_trans (sorted_getD_mono hs hij hj) hpj

theorem countP_range_split (l : List ℤ) (lo hi : ℤ) (hlohi : lo ≤ hi) :
    l.countP (fun x => decide (x ≤ hi))
      = l.countP (fun x => decide (x < lo))
        + l.countP (fun x => decide (lo ≤ x) && decide (x ≤ hi)) := by
  induction l with
  | nil => rfl
  | cons a l ih =>
    simp only [List.countP_cons, ih]
    by_cases h1 : a ≤ hi <;> by_cases h2 : a < lo <;> by_cases h3 : lo ≤ a <;>
      simp [h1, h2, h3] <;> omega

theorem foldl_add_map (f : ℤ → ℕ) : ∀ (l : List ℤ) (init : ℕ),
    l.foldl (fun total ts => total + f ts) init = init + (l.map f).sum := by
  intro l
  induction l with
  | nil => intro init; simp
  | cons a l ih =>
    intro init
    simp only [List.foldl_cons, List.map_cons, List.sum_cons, ih]
    omega

instance : IsTotal EvidenceItem tsLE := ⟨tsLE_total⟩

instance : IsTrans EvidenceItem tsLE := ⟨fun _ _ _ h1 h2 => tsLE_trans h1 h2⟩

theorem fileChanges_sorted (evidence : List EvidenceItem) :
    List.Sorted (· ≤ ·)
      ((List.insertionSort tsLE
        (evidence.filter fun item => item.type == EvidenceType.file_change)).map (·.ts)) := by
  have hs : List.Sorted tsLE (List.insertionSort tsLE
      (evidence.filter fun item => item.type == EvidenceType.file_change)) :=
    List.sorted_insertionSort tsLE _
  rw [List.Sorted, List.pairwise_map]
  exact hs

/-- The progress signal as the specification words it: the total, over the
member instructions, of the file-change evidence items whose timestamp lies
within the window around that instruction. -/
theorem computeFileChange_spec (instructionTs : List ℤ) (evidence : List EvidenceItem)
    (windowMs : ℤ) (hw : 0 ≤ windowMs) :
    computeFileChangeAroundInstructions instructionTs evidence windowMs
      = (instructionTs.map fun ts => evidence.countP fun item =>
          (item.type == EvidenceType.file_change)
            && decide (ts - windowMs ≤ item.ts) && decide (item.ts ≤ ts + windowMs)).sum := by
  simp only [computeFileChangeAroundInstructions]
  cases hfc : (List.insertionSort tsLE
      (evidence.filter fun item => item.type == EvidenceType.file_change)).isEmpty with
  | true =>
    simp only [Bool.true_or, if_true]
    symm
    apply List.sum_eq_zero
    intro n hn
    obtain ⟨ts, _, rfl⟩ := List.mem_map.mp hn
    have hfilnil : evidence.filter (fun item => item.type == EvidenceType.file_change) = [] := by
      have hnil := List.isEmpty_iff.mp hfc
      have hlen := congrArg List.length hnil
      rw [List.length_insertionSort] at hlen
      exact List.length_eq_zero.mp (by simpa using hlen)
    have h0 : evidence.countP (fun item => item.type == EvidenceType.file_change) = 0 := by
      rw [List.countP_eq_length_filter, hfilnil]
      rfl
    have hle : evidence.countP (fun item =>
        (item.type == EvidenceType.file_change) && decide (ts - windowMs ≤ item.ts)
          && decide (item.ts ≤ ts + windowMs))
        ≤ evidence.countP (fun item => item.type == EvidenceType.file_change) := by
      apply List.countP_mono_left
      intro x _ hx
      simp only [Bool.and_eq_true] at hx
      exact hx.1.1
    omega
  | false =>
    cases hit : instructionTs.isEmpty with
    | true =>
      have hnil := List.isEmpty_iff.mp hit
      simp [hnil]
    | false =>
      simp only [Bool.or_self, Bool.false_or, if_false]
      rw [foldl_add_map (fun ts =>
        binarySearchRight ((List.insertionSort tsLE
            (evidence.filter fun item => item.type == EvidenceType.file_change)).map (·.ts))
          (ts + windowMs)
        - binarySearchLeft ((List.insertionSort tsLE
            (evidence.filter fun item => item.type == EvidenceType.file_change)).map (·.ts))
          (ts - windowMs))]
      rw [Nat.zero_add]
      have hsorted := fileChanges_sorted evidence
      have hper : ∀ ts ∈ instructionTs,
          binarySearchRight ((List.insertionSort tsLE
              (evidence.filter fun item => item.type == EvidenceType.file_change)).map (·.ts))
            (ts + windowMs)
          - binarySearchLeft ((List.insertionSort tsLE
              (evidence.filter fun item => item.type == EvidenceType.file_change)).map (·.ts))
            (ts - windowMs)
          = evidence.countP fun item =>
              (item.type == EvidenceType.file_change)
                && decide (ts - windowMs ≤ item.ts) && decide (item.ts ≤ ts + windowMs) := by
        intro ts _
        rw [binarySearchRight_count _ hsorted, binarySearchLeft_count _ hsorted]
        rw [countP_range_split _ (ts - windowMs) (ts + windowMs) (by omega)]
        rw [Nat.add_sub_cancel_left]
        rw [List.countP_map]
        rw [List.Perm.countP_eq _ (List.perm_insertionSort tsLE _)]
        rw [List.countP_filter]
        congr 1
        funext a
        simp only [Function.comp]
        cases a.type == EvidenceType.file_change <;>
          cases hd1 : decide (ts - windowMs ≤ a.ts) <;>
            cases hd2 : decide (a.ts ≤ ts + windowMs) <;> simp
      exact congrArg List.sum (List.map_congr_left hper)

/-- The interpretation policy as the specification words it: `count − 1`
in place of the code's `max 2 (count − 1)` (the two agree whenever the
guard `3 ≤ count` holds). -/
def interpPolicySpec (kind : RepKind) (count : ℕ) (texts : List Str)
    (fileChangeAround : ℕ) : Interp :=
  if kind = .exact_repeat ∧ 3 ≤ count ∧ (hasStuckLanguage texts ∨ fileChangeAround ≤ 1) then
    .stuck_issue
  else if 3 ≤ count ∧ count - 1 ≤ fileChangeAround then .feature_polish
  else .normal_iteration

theorem infer_eq_policySpec (kind : RepKind) (count : ℕ) (texts : List Str) (fc : ℕ) :
    inferRepetitionInterpretation kind count texts fc = interpPolicySpec kind count texts fc := by
  unfold inferRepetitionInterpretation interpPolicySpec
  by_cases h1 : 3 ≤ count
  · have hmax : max 2 (count - 1) = count - 1 := by omega
    rw [hmax]
    by_cases hk : kind = RepKind.exact_repeat <;>
      by_cases hs : hasStuckLanguage texts = true ∨ fc ≤ 1 <;>
        simp [h1, hk, hs]
  · simp [h1]

/-- Members of a `groupByKeyF` group are input items (generic form). -/
theorem mem_of_mem_groupByKeyF [DecidableEq κ] (key : α → κ) {items : List α}
    {g : κ × List α} (hg : g ∈ groupByKeyF key items) {x : α} (hx : x ∈ g.2) : x ∈ items := by
  obtain ⟨_, hfilter, _, _⟩ := groupByKeyF_inv key items
  rw [hfilter g hg] at hx
  exact List.mem_of_mem_filter hx

/-- C7: the progress signal counts file-change evidence within the ±20-minute
window of each member instruction's timestamp (summed over the members); the
interpretation policy of the code coincides with the claimed one (exact-repeat
with count ≥ 3 and stuck language or signal ≤ 1 gives stuck_issue, otherwise
count ≥ 3 with signal ≥ count − 1 gives feature_polish, otherwise
normal_iteration); and every cluster built by `buildRepetitionClusters`
carries the interpretation of that policy applied to its member group's
texts and the signal computed from the member timestamps. -/
theorem c7_repetition_interpretation (hashFn : List SPart → Str)
    (instructions : List UserInstruction) (evidence : List EvidenceItem) :
    (∀ instructionTs,
        computeFileChangeAroundInstructions instructionTs evidence (20 * 60 * 1000)
          = (instructionTs.map fun ts => evidence.countP fun item =>
              (item.type == EvidenceType.file_change)
                && decide (ts - 20 * 60 * 1000 ≤ item.ts)
                && decide (item.ts ≤ ts + 20 * 60 * 1000)).sum)
    ∧ (∀ kind count texts fc,
        inferRepetitionInterpretation kind count texts fc = interpPolicySpec kind count texts fc)
    ∧ (∀ c ∈ buildRepetitionClusters hashFn instructions evidence,
        ∃ group : List UserInstruction,
          (∀ i ∈ group, i ∈ instructions)
          ∧ c.count = group.length
          ∧ c.instructionIds = group.map (·.id)
          ∧ c.interpretation = interpPolicySpec c.kind group.length (group.map (·.text))
              (computeFileChangeAroundInstructions (group.map (·.ts)) evidence
                (20 * 60 * 1000))) := by
  refine ⟨?_, ?_, ?_⟩
  · intro instructionTs
    exact computeFileChange_spec instructionTs evidence (20 * 60 * 1000) (by omega)
  · intro kind count texts fc
    exact infer_eq_policySpec kind count texts fc
  · intro c hc
    simp only [buildRepetitionClusters] at hc
    obtain ⟨c', hc', rfl⟩ := List.mem_map.mp hc
    have hc'' := List.mem_of_mem_take hc'
    rw [List.mem_insertionSort] at hc''
    rcases List.mem_append.mp hc'' with hcx | hct
    · obtain ⟨g, hg, hsome⟩ := List.mem_filterMap.mp hcx
      split at hsome
      · cases hsome
      · injection hsome with hsome
        subst hsome
        refine ⟨g.2, ?_, rfl, rfl, ?_⟩
        · intro i hi
          have hmem := mem_of_mem_groupByKeyF _ hg hi
          exact List.mem_of_mem_filter (List.mem_of_mem_filter hmem)
        · exact infer_eq_policySpec RepKind.exact_repeat g.2.length (g.2.map (·.text))
            (computeFileChangeAroundInstructions (g.2.map (·.ts)) evidence (20 * 60 * 1000))
    · obtain ⟨g, hg, hsome⟩ := List.mem_filterMap.mp hct
      split at hsome
      · cases hsome
      · split at hsome
        · cases hsome
        · injection hsome with hsome
          subst hsome
          refine ⟨g.2, ?_, rfl, rfl, ?_⟩
          · intro i hi
            have hmem := mem_of_mem_groupByKeyF _ hg hi
            exact List.mem_of_mem_filter (List.mem_of_mem_filter hmem)
          · exact infer_eq_policySpec RepKind.topic_repeat g.2.length (g.2.map (·.text))
              (computeFileChangeAroundInstructions (g.2.map (·.ts)) evidence (20 * 60 * 1000))

/-- A nontrivial user instruction repeated three times in the C7 witness. -/
def insRep1 : UserInstruction :=
  { id := ("i1").data, ts := 0, text := ("fix login error").data,
    normalized := ("fix login error").data,
    tokens := [("fix").data, ("login").data, ("error").data], sourceEventId := none }

/-- Second repetition of the witness instruction. -/
def insRep2 : UserInstruction := { insRep1 with id := ("i2").data, ts := 1 }

/-- Third repetition of the witness instruction. -/
def insRep3 : UserInstruction := { insRep1 with id := ("i3").data, ts := 2 }

/-- The cluster produced for the three repetitions with no evidence. -/
def c7Cluster : RepetitionCluster :=
  { id := stableId (fun _ => []) [.s ("repeat").data, .s ("exact").data,
      .s ("fix login error").data]
    topic := ("fix / login / error").data
    count := 3
    instructionIds := [("i1").data, ("i2").data, ("i3").data]
    kind := .exact_repeat
    interpretation := .stuck_issue }

/-- C7 witness: three identical nontrivial instructions with no file-change
evidence produce exactly the exact-repeat cluster interpreted as
stuck_issue, matching the claimed policy. -/
theorem c7_witness :
    c7Cluster ∈ buildRepetitionClusters (fun _ => []) [insRep1, insRep2, insRep3] []
    ∧ ∃ group : List UserInstruction,
        (∀ i ∈ group, i ∈ [insRep1, insRep2, insRep3])
        ∧ c7Cluster.count = group.length
        ∧ c7Cluster.instructionIds = group.map (·.id)
        ∧ c7Cluster.interpretation = interpPolicySpec c7Cluster.kind group.length
            (group.map (·.text))
            (computeFileChangeAroundInstructions (group.map (·.ts)) [] (20 * 60 * 1000)) :=
  ⟨by decide,
   (c7_repetition_interpretation (fun _ => []) [insRep1, insRep2, insRep3] []).2.2
     c7Cluster (by decide)⟩
